import Mathlib

/-!
Verification of the tproc streaming macro-expansion engine (tproc.py).

The embedding models the pipeline of `tproc.py`:
  chunks → `_Stream` (pushback stream) → `_tokens_parser` (lexer)
  → `_format_parser` (field grouping) → `_parse_and_expand_field`
  (field evaluation) → `expand` (top-level flattening).

Python strings are modelled as `List Char`.  The lazy generator pipeline is
modelled strictly: each stage is a function from its whole input to
`Except Err` of its whole output, which is observationally equivalent for
terminating runs (the only laziness that is semantically visible — the
argument generators handed to a callable — is modelled explicitly, see
`applyFunc`).  The lexer's loop is not structurally recursive (push-back can
grow the buffer), so it takes a fuel argument; `tokensParser` supplies fuel
`streamM front source + 1`, which the lemma `tokensGo_inv` shows is enough.
-/

namespace Tproc

/-- Python strings, modelled as lists of characters. -/
abbrev Str := List Char

/-- Identifiers for the concrete callables used when settling the claims
(the evaluator capability is external to the core: `eval` runs arbitrary
Python, so callables are modelled by a closed table, see `applyFunc`). -/
inductive FuncId where
  | textDef (s : Str)
  | constStr (s : Str)
  | headArg
  | argCount

/-- Non-text payloads that may travel through the pipeline as chunks
(`_tokens_parser` passes non-string chunks through wrapped in a
`LiteralToken`).  `num 0` is falsy in Python, like the empty string. -/
inductive Payload where
  | num (n : Nat)
  | fn (f : FuncId)

/-- Content of a `LiteralToken`: a string or a non-text payload. -/
inductive LitC where
  | str (s : Str)
  | payload (p : Payload)

/-- Tokens: `_DelimiterToken` (one of `{`, `}`, `:`), `LiteralToken`, and
`_ReplacementField` (carrying the field's inner token sequence). -/
inductive Token where
  | delim (c : Char)
  | lit (c : LitC)
  | field (ts : List Token)

/-- Chunks flowing through `_Stream`: strings, non-text payloads, or token
objects (tokens re-enter the stream during recursive expansion). -/
inductive Chunk where
  | str (s : Str)
  | payload (p : Payload)
  | tok (t : Token)

/-- Error taxonomy: each constructor stands for one fatal Python exception
site (`assert` failures, `eval` errors, `str.format` errors, missing
attributes / files).  `fuelOut` and `recursionLimit` are artifacts of the
strict embedding and are proved unreachable for adequate fuel. -/
inductive Err where
  | unknownEscape
  | escapedNonText
  | unmatchedBrace
  | unterminated
  | internalDelimiter
  | internalError
  | evalError
  | typeError
  | formatError
  | stringifyError
  | recursionLimit
  | fileNotFound
  | fuelOut
deriving DecidableEq

/-- Python truthiness of a chunk: the empty string and the number 0 are
falsy; token objects are always truthy. -/
def chunkFalsy : Chunk → Bool
  | .str [] => true
  | .payload (.num 0) => true
  | _ => false

/-- One read from `_Stream.read`: pop from the pushback buffer skipping falsy
chunks, else pull one item from the source; a falsy source item ends the
stream (`if not chunk: return`).  `front` holds the pushback buffer in
reading order (Python stores it reversed and pops from the end; `pushBack`
below models that storage literally, and reads the same chunks in the same
order).  Returns the chunk (if any) and the updated stream state. -/
def streamRead1 : List Chunk → List Chunk → Option Chunk × List Chunk × List Chunk
  | c :: front, source =>
      if chunkFalsy c then streamRead1 front source else (some c, front, source)
  | [], c :: source =>
      if chunkFalsy c then (none, [], source) else (some c, [], source)
  | [], [] => (none, [], [])

/-- `str.partition(d)` restricted to a found separator: the text before the
first occurrence of `d` and the text after it. -/
def partitionAt (d : Char) : Str → Option (Str × Str)
  | [] => none
  | c :: cs =>
      if c = d then some ([], cs)
      else match partitionAt d cs with
        | none => none
        | some (pre, post) => some (c :: pre, post)

/-- One candidate split of `_tokens_parser`: `segments = chunk.partition(delim)`
kept when `segments[1] and (segments[0] or segments[2])`. -/
def splitOn1 (s : Str) (d : Char) : Option (Str × Char × Str) :=
  match partitionAt d s with
  | none => none
  | some (pre, post) => if pre = [] ∧ post = [] then none else some (pre, d, post)

/-- The chunk-splitting step of `_tokens_parser`: find a delimiter or escape
character strictly inside the chunk.  Python iterates
`set(self._delimiters) | set([self._escape_char])` in unspecified set order;
the re-splitting of pushed-back segments makes the resulting token stream
independent of that order, and we fix the order `{`, `}`, `:`, `\`. -/
def splitChunk (s : Str) : Option (Str × Char × Str) :=
  match splitOn1 s '{' with
  | some r => some r
  | none =>
    match splitOn1 s '}' with
    | some r => some r
    | none =>
      match splitOn1 s ':' with
      | some r => some r
      | none => splitOn1 s '\\'

/-- The escape table `self._escapes`: the C escape sequences, plus one escape
for each delimiter character and one for the definition prefix `@`. -/
def escapes : Char → Option Char
  | '\\' => some '\\'
  | '\'' => some '\''
  | '\"' => some '\"'
  | 'a' => some (Char.ofNat 7)
  | 'b' => some (Char.ofNat 8)
  | 'f' => some (Char.ofNat 12)
  | 'n' => some '\n'
  | 'r' => some (Char.ofNat 13)
  | 't' => some '\t'
  | 'v' => some (Char.ofNat 11)
  | '{' => some '{'
  | '}' => some '}'
  | ':' => some ':'
  | '@' => some '@'
  | _ => none

/-- `next_chunk` starts a comment: `isinstance(next_chunk, str) and
next_chunk.startswith(self._comment_prefix)`. -/
def isCommentStart : Chunk → Bool
  | .str ('#' :: _) => true
  | _ => false

/-- `self._delimiters.get(chunk, None)` followed by the `LiteralToken`
fallback: a single-delimiter chunk becomes its delimiter token, anything
else a literal. -/
def tokOf (s : Str) : Token :=
  if s = ['{'] then .delim '{'
  else if s = ['}'] then .delim '}'
  else if s = [':'] then .delim ':'
  else .lit (.str s)

/-- Fuel measure for the lexer loop: splitting a chunk of length `n` into
pieces of lengths `a`, `1`, `b` (with `a + 1 + b = n`, both sides shorter)
strictly decreases `3^a + 3 + 3^b < 3^n`. -/
def chunkM : Chunk → Nat
  | .str s => 3 ^ s.length
  | _ => 1

/-- Total measure of a stream state. -/
def streamM (front source : List Chunk) : Nat :=
  (front.map chunkM).sum + (source.map chunkM).sum

/-- The loop body of `_tokens_parser` on one chunk just read from the
stream.  State: `escaped` (an escape character was read and not yet
resolved), `commented` (inside a commented-out field), and the stream
state.  The result is the token to emit for this iteration (if any) and the
updated state.  Faithful to the source's branch order, with one rewrite:
the source checks `not commented_out and chunk == escape_char` before
`if commented_out:`; the two guards commute, so the `commented` test is
hoisted first. -/
def tokensStep (escaped commented : Bool) :
    Chunk → List Chunk → List Chunk →
    Except Err (Option Token × Bool × Bool × List Chunk × List Chunk)
  | .payload p, front, source =>
      -- Non-string chunks become `LiteralToken`s; `assert not escaped`.
      if escaped then .error .escapedNonText
      else .ok (some (.lit (.payload p)), escaped, commented, front, source)
  | .tok t, front, source =>
      -- A chunk that already is a token is yielded unchanged.
      if escaped then .error .escapedNonText
      else .ok (some t, escaped, commented, front, source)
  | .str s, front, source =>
    if escaped then
      -- Resolve the escape on `chunk[0]`, push back `chunk[1:]`.
      match s with
      | [] => .error .internalError   -- unreachable: the stream yields no empty chunk
      | c :: rest =>
        if c = '\n' then .ok (none, false, commented, Chunk.str rest :: front, source)
        else
          match escapes c with
          | some m =>
              .ok (some (.lit (.str [m])), false, commented, Chunk.str rest :: front, source)
          | none => .error .unknownEscape
    else
      match splitChunk s with
      | some (pre, d, post) =>
          .ok (none, escaped, commented,
               Chunk.str pre :: Chunk.str [d] :: Chunk.str post :: front, source)
      | none =>
        if commented then
          -- Discard chunks until a bare `}` ends the comment.
          if s = ['}'] then .ok (none, escaped, false, front, source)
          else .ok (none, escaped, commented, front, source)
        else if s = ['\\'] then .ok (none, true, commented, front, source)
        else if s = ['{'] then
          -- Peek the next chunk; text starting with `#` triggers a comment.
          match streamRead1 front source with
          | (some next, front2, source2) =>
              if isCommentStart next then
                .ok (none, escaped, true, next :: front2, source2)
              else .ok (some (.delim '{'), escaped, commented, next :: front2, source2)
          | (none, front2, source2) =>
              .ok (some (.delim '{'), escaped, commented, front2, source2)
        else .ok (some (tokOf s), escaped, commented, front, source)

/-- Prepend an optional emitted token. -/
def consTok : Option Token → List Token → List Token
  | none, ts => ts
  | some t, ts => t :: ts

/-- The loop of `_tokens_parser`, with fuel: read a chunk (the loop ends
when the stream does), run `tokensStep`, recurse on the updated state. -/
def tokensGo : Nat → Bool → Bool → List Chunk → List Chunk → Except Err (List Token)
  | 0, _, _, _, _ => .error .fuelOut
  | n + 1, escaped, commented, front0, source0 =>
    match streamRead1 front0 source0 with
    | (none, _, _) => .ok []
    | (some chunk, front, source) =>
      match tokensStep escaped commented chunk front source with
      | .error e => .error e
      | .ok (t?, e2, c2, f2, s2) => consTok t? <$> tokensGo n e2 c2 f2 s2

/-- `_tokens_parser` over a stream state: `tokensGo` with adequate fuel
(see `tokensGo_inv`). -/
def tokensParser (escaped commented : Bool) (front source : List Chunk) :
    Except Err (List Token) :=
  tokensGo (streamM front source + 1) escaped commented front source

/-- A stray delimiter reaching balance 0 in `_format_parser` is downgraded
to a literal (`token = LiteralToken(token.content)`). -/
def downgradeTok : Token → Token
  | .delim c => .lit (.str [c])
  | t => t

/-- `token is self._left_brace`. -/
def isLBrace : Token → Bool
  | .delim c => c == '{'
  | _ => false

/-- `token is self._right_brace`. -/
def isRBrace : Token → Bool
  | .delim c => c == '}'
  | _ => false

/-- `token is self._colon`. -/
def isColon : Token → Bool
  | .delim c => c == ':'
  | _ => false

/-- The loop of `_format_parser`: brace balance, accumulator for the current
field's tokens, remaining input tokens.  Branches follow the source: an
opening brace at balance 0 is consumed silently, at balance > 0 appended; a
closing brace at balance 0 is fatal, at balance 1 it closes the field
(emitted unless empty), deeper it is appended; any other token is emitted
(delimiters downgraded) at balance 0 and appended otherwise. -/
def formatGo : Nat → List Token → List Token → Except Err (List Token)
  | b, _, [] => if b = 0 then .ok [] else .error .unterminated
  | b, f, t :: ts =>
    if isLBrace t then
      if b = 0 then formatGo 1 f ts else formatGo (b + 1) (f ++ [t]) ts
    else if isRBrace t then
      if b = 0 then .error .unmatchedBrace
      else if b = 1 then
        -- Balance returns to 0: emit the field unless it is empty.
        (match f with
         | [] => formatGo 0 [] ts
         | f => (Token.field f :: ·) <$> formatGo 0 [] ts)
      else formatGo (b - 1) (f ++ [t]) ts
    else if b = 0 then (downgradeTok t :: ·) <$> formatGo 0 f ts
    else formatGo b (f ++ [t]) ts

/-- `_format_parser` applied to an already-lexed token list. -/
def formatParser (ts : List Token) : Except Err (List Token) :=
  formatGo 0 [] ts

/-- The balance update of `_parse_field_component`: `{` raises it, `}`
lowers it when positive. -/
def balStep (b : Nat) (t : Token) : Nat :=
  if isLBrace t then b + 1
  else if isRBrace t = true ∧ 0 < b then b - 1
  else b

/-- The loop of `_parse_field_component`: consume tokens up to the first
colon at brace balance 0 (nested `{`/`}` tracked for balance only). -/
def fieldComponentGo : Nat → List Token → List Token → List Token × List Token
  | _, comp, [] => (comp, [])
  | b, comp, t :: ts =>
      if b = 0 ∧ isColon t = true then (comp, ts)
      else fieldComponentGo (balStep b t) (comp ++ [t]) ts

/-- `_parse_field_component`: the component and the remaining tokens. -/
def fieldComponent (ts : List Token) : List Token × List Token :=
  fieldComponentGo 0 [] ts

/-- The `while tokens:` argument loop of `_parse_and_expand_field`; each
iteration consumes at least one token, so `ts.length` is adequate fuel. -/
def collectArgsGo : Nat → List Token → List (List Token)
  | 0, _ => []
  | _, [] => []
  | n + 1, t :: ts =>
      let r := fieldComponent (t :: ts)
      r.1 :: collectArgsGo n r.2

/-- All remaining colon-separated components, as token lists. -/
def collectArgs (ts : List Token) : List (List Token) :=
  collectArgsGo ts.length ts

/-- Decimal rendering of a natural number, Python's `str(int)`. -/
def strOfNat (n : Nat) : Str := Nat.toDigits 10 n

/-- `str(x.content)` for a token `x` (used by `_stringify_tokens`).  A
`field` token's content is a Python list, whose `str()` is its repr; a field
token can only sit inside another field's content if a `_ReplacementField`
object is fed in as a raw input chunk, which no text input can produce, so
the rendering of that branch is never load-bearing. -/
def tokContentStr : Token → Str
  | .delim c => [c]
  | .lit (.str s) => s
  | .lit (.payload (.num n)) => strOfNat n
  | .lit (.payload (.fn _)) => ['<', 'f', 'n', '>']
  | .field _ => ['<', 'f', 'i', 'e', 'l', 'd', '>']

/-- `_stringify_tokens`: concatenate `str(x.content)` over the tokens. -/
def stringifyTokens (ts : List Token) : Str :=
  (ts.map tokContentStr).flatten

/-- `str(x.content)` where `x` is a chunk produced by `_expand_tokens`: only
token chunks carry a `.content` attribute; a raw string or payload chunk
(e.g. the output of a nested formatted field) raises `AttributeError`. -/
def chunkContentStr : Chunk → Except Err Str
  | .tok t => .ok (tokContentStr t)
  | _ => .error .stringifyError

/-- `_stringify_tokens` applied to the collected expansion of a field (the
format-specifier branch of `_parse_and_expand_field`). -/
def stringifyChunks (cs : List Chunk) : Except Err Str := do
  let ss ← cs.mapM chunkContentStr
  .ok ss.flatten

/-- Values produced by the external evaluator capability (`eval` on the
shared namespace): strings, numbers, generators of chunks, or callables. -/
inductive Value where
  | vstr (s : Str)
  | vnum (n : Nat)
  | vgen (cs : List Chunk)
  | vfunc (f : FuncId)

/-- The evaluator capability: `eval(expression_text, namespace)`.  External
to the core; claims instantiate it with concrete environments. -/
def Env := Str → Except Err Value

/-- `if not isinstance(value, types.GeneratorType): value = (x for x in
[value])`: wrap a non-generator value as a one-element chunk sequence. -/
def toGenerator : Value → List Chunk
  | .vgen cs => cs
  | .vstr s => [.str s]
  | .vnum n => [.payload (.num n)]
  | .vfunc f => [.payload (.fn f)]

/-- Python whitespace for `str.strip()`. -/
def isPySpace (c : Char) : Bool :=
  c = ' ' ∨ c = '\t' ∨ c = '\n' ∨ c = Char.ofNat 13 ∨ c = Char.ofNat 12 ∨ c = Char.ofNat 11

/-- `str.strip()`. -/
def pyStrip (s : Str) : Str :=
  ((s.dropWhile isPySpace).reverse.dropWhile isPySpace).reverse

/-- `value(*args)`: calling a value.  The Python code passes each argument
as the *generator* `self._expand_tokens((x for x in arg))`, i.e. a suspended
expansion of the argument's token list; we model a suspended expansion by
its token list, and a callable that consumes an argument applies `expander`
(the expansion entry point it was handed) to it.  The table holds the
callables used by the claims: `textDef` is the `define_text` lambda
`lambda: [(yield text.strip())]` (no parameters, so any argument is a
`TypeError`); `constStr` returns a string without touching its arguments;
`headArg` returns its first argument's expansion; `argCount` returns the
number of arguments it received. -/
def applyFunc (expander : List Chunk → Except Err (List Chunk)) :
    FuncId → List (List Token) → Except Err Value
  | .textDef s, [] => .ok (.vgen [.str (pyStrip s)])
  | .textDef _, _ :: _ => .error .typeError
  | .constStr s, _ => .ok (.vstr s)
  | .headArg, [] => .error .typeError
  | .headArg, a :: _ => (Value.vgen ·) <$> expander (a.map .tok)
  | .argCount, args => .ok (.vstr (strOfNat args.length))

/-- `'0'..'9'` prefix of a format specifier. -/
def takeDigits : Str → Str × Str
  | [] => ([], [])
  | c :: cs =>
      if c.isDigit then
        let r := takeDigits cs
        (c :: r.1, r.2)
      else ([], c :: cs)

/-- Numeric value of a digit string. -/
def digitsVal (ds : Str) : Nat :=
  ds.foldl (fun a c => a * 10 + (c.toNat - '0'.toNat)) 0

/-- Alignment characters valid for string values. -/
def isAlignChar (c : Char) : Bool := c = '<' ∨ c = '>' ∨ c = '^'

/-- `[[fill]align]` of the format minilanguage; for string values the
default alignment is `<` and `=` is invalid. -/
def parseFillAlign : Str → Except Err (Char × Char × Str)
  | a :: b :: rest =>
      if isAlignChar b then .ok (a, b, rest)
      else if b = '=' then .error .formatError
      else if isAlignChar a then .ok (' ', a, b :: rest)
      else if a = '=' then .error .formatError
      else .ok (' ', '<', a :: b :: rest)
  | [a] =>
      if isAlignChar a then .ok (' ', a, [])
      else if a = '=' then .error .formatError
      else .ok (' ', '<', [a])
  | [] => .ok (' ', '<', [])

/-- Pad a string to `width` with `fill` according to `align` (`^` puts the
extra fill character on the right, as Python does). -/
def padTo (fill align : Char) (width : Nat) (v : Str) : Str :=
  if width ≤ v.length then v
  else
    let p := width - v.length
    if align = '<' then v ++ List.replicate p fill
    else if align = '>' then List.replicate p fill ++ v
    else List.replicate (p / 2) fill ++ v ++ List.replicate (p - p / 2) fill

/-- `'{0:{1}}'.format(value, format_spec)` for a string `value`: the
standard alignment/width/precision minilanguage, modelled for string values
in its `[[fill]align][width][.precision][s]` forms; other forms (the `0`
flag, signs, numeric types) are rejected, as Python rejects them for plain
strings with default alignment. -/
def pyFormat (v spec : Str) : Except Err Str := do
  let r ← parseFillAlign spec
  match r with
  | (fill, align, rest) =>
    match rest with
    | '0' :: _ => .error .formatError
    | _ =>
      let w := takeDigits rest
      let width := digitsVal w.1
      let vr ← (match w.2 with
        | '.' :: r2 =>
            let pr := takeDigits r2
            if pr.1 = [] then (.error .formatError : Except Err (Str × Str))
            else .ok (v.take (digitsVal pr.1), pr.2)
        | r2 => .ok (v, r2))
      match vr.2 with
      | [] => .ok (padTo fill align width vr.1)
      | ['s'] => .ok (padTo fill align width vr.1)
      | _ => .error .formatError

/-- The token loop of `_expand_tokens`: replacement fields are expanded by
`expandFieldF` (the stage is handed its own recursive entry point), other
tokens pass through as chunks. -/
def expandToks (expandFieldF : List Token → Except Err (List Chunk)) :
    List Token → Except Err (List Chunk)
  | [] => .ok []
  | .field fts :: ts => do
      let cs ← expandFieldF fts
      let rest ← expandToks expandFieldF ts
      .ok (cs ++ rest)
  | t :: ts => do
      let rest ← expandToks expandFieldF ts
      .ok (.tok t :: rest)

/-- `_parse_and_expand_field`: split the field's tokens into value
expression, format specifier and arguments; evaluate; call if invocable;
re-expand; format if a specifier is present. -/
def parseAndExpandField (env : Env) (expander : List Chunk → Except Err (List Chunk))
    (tokens : List Token) : Except Err (List Chunk) := do
  let c1 := fieldComponent tokens
  let c2 := fieldComponent c1.2
  let args := collectArgs c2.2
  let v0 ← env (stringifyTokens c1.1)
  let v1 ← (match v0 with
    | .vfunc f => applyFunc expander f args
    | v => (.ok v : Except Err Value))
  let expanded ← expander (toGenerator v1)
  match c2.1 with
  | [] => .ok expanded
  | spec => do
      let vs ← stringifyChunks expanded
      let out ← pyFormat vs (stringifyTokens spec)
      .ok [Chunk.str out]

/-- `_expand_tokens`: lex, group fields, and expand each field.  `fuel`
bounds the macro-recursion depth (each nested re-expansion steps it down);
Python has no explicit ceiling, its recursion simply deepens the stack. -/
def expandTokens (env : Env) : Nat → List Chunk → Except Err (List Chunk)
  | 0, _ => .error .recursionLimit
  | fuel + 1, source => do
      let toks ← tokensParser false false [] source
      let toks2 ← formatParser toks
      expandToks (parseAndExpandField env (expandTokens env fuel)) toks2

/-- The per-chunk step of `expand`: delimiters must all be consumed by now
(`assert not isinstance(chunk, _DelimiterToken)`), literal tokens are
unwrapped to their content, anything else passes through. -/
def expandOut : Chunk → Except Err Chunk
  | .tok (.delim _) => .error .internalDelimiter
  | .tok (.lit (.str s)) => .ok (.str s)
  | .tok (.lit (.payload p)) => .ok (.payload p)
  | .tok t => .ok (.tok t)
  | c => .ok c

/-- `Processor.expand`: the top-level expansion entry point. -/
def expand (env : Env) (fuel : Nat) (input : List Chunk) : Except Err (List Chunk) := do
  let cs ← expandTokens env fuel input
  cs.mapM expandOut

/-- An environment with nothing defined: every `eval` raises (`NameError`). -/
def envEmpty : Env := fun _ => .error .evalError

/-- An environment where `x` evaluates to the plain string `"V"`. -/
def envV : Env := fun s =>
  if s = ['x'] then .ok (.vstr ['V']) else .error .evalError

/-- An environment with three callables — `f` counts its arguments, `g`
ignores its arguments and returns `"ok"`, `h` expands and returns its first
argument — and nothing else defined (in particular `zzz` raises). -/
def envC : Env := fun s =>
  if s = ['f'] then .ok (.vfunc .argCount)
  else if s = ['g'] then .ok (.vfunc (.constStr ['o', 'k']))
  else if s = ['h'] then .ok (.vfunc .headArg)
  else .error .evalError

/-! ### The `_Stream` buffer, modelled verbatim

`tokensGo` above carries the pushback buffer in reading order.  The
definitions here model `_Stream`'s storage literally for the claims about
it: `self._front` is a Python list whose *end* is the read position
(`self._front.pop()`), and `push_back(*chunks)` appends
`reversed(chunks)`. -/

/-- `_Stream.push_back(*chunks)`: `self._front.extend(reversed(chunks))`. -/
def pushBack (front chunks : List Chunk) : List Chunk :=
  front ++ chunks.reverse

/-- `self._front.pop()`: remove and return the last element. -/
def popTop : List Chunk → Option (Chunk × List Chunk)
  | [] => none
  | [c] => some (c, [])
  | c :: rest =>
      match popTop rest with
      | some (t, r) => some (t, c :: r)
      | none => none

/-- Drain `_Stream.read()`: pop from the buffer's end skipping falsy chunks,
then pull source items one at a time until a falsy one ends the stream.
Fueled; `readAll` supplies adequate fuel (see `readAllGo_inv`). -/
def readAllGo : Nat → List Chunk → List Chunk → List Chunk
  | 0, _, _ => []
  | n + 1, front, source =>
    match popTop front with
    | some (c, front2) =>
        if chunkFalsy c then readAllGo n front2 source else c :: readAllGo n front2 source
    | none =>
      match source with
      | [] => []
      | c :: rest => if chunkFalsy c then [] else c :: readAllGo n [] rest

/-- Every chunk `_Stream.read()` yields, in order. -/
def readAll (front source : List Chunk) : List Chunk :=
  readAllGo (front.length + source.length + 1) front source

/-! ### The include-directory stack

`process_input` pushes the file's directory onto `self.include_dirs`,
scans the input for definitions, and pops; `include` resolves a relative
path against the top of the stack and recurses into `process_file`.  The
definition scanning is modelled at the granularity of whole definitions
(`Item`), and a code definition — whose body `define_code` hands to the
external `exec` — is modelled by the `tproc.include(...)` calls it
performs, which is the only effect of a definition on the stack. -/

/-- One scanned definition: a text definition (name and body), or a code
definition abstracted to the includes its execution performs. -/
inductive Item where
  | defText (name body : Str)
  | defCode (incs : List Str)

/-- The file system as `process_file` sees it: path to scanned content. -/
structure PConfig where
  files : List (Str × List Item)

/-- Association-list lookup of a file's content. -/
def lookupFiles : List (Str × List Item) → Str → Option (List Item)
  | [], _ => none
  | (p, its) :: rest, q => if p = q then some its else lookupFiles rest q

/-- `os.path.isabs`. -/
def isAbs : Str → Bool
  | '/' :: _ => true
  | _ => false

/-- `os.path.join` for one relative component. -/
def joinPath (d p : Str) : Str :=
  if d = [] then p else d ++ '/' :: p

/-- `os.path.dirname`: everything before the last `/` (empty if none). -/
def dirname (p : Str) : Str :=
  ((p.reverse.dropWhile fun c => !(c == '/')).drop 1).reverse

/-- `self.include_dirs[-1]`. -/
def lastD (st : List Str) : Str :=
  (st.getLast?).getD []

/-- `Processor.include`: resolve a relative path against the stack's top and
process that file (`fileF` is the file-processing entry point). -/
def includeFile (fileF : List Str → Str → Except Err (List Str))
    (st : List Str) (path : Str) : Except Err (List Str) :=
  fileF st (if isAbs path then path else joinPath (lastD st) path)

/-- Run the includes of one code definition, left to right, threading the
include-directory stack. -/
def runIncludes (fileF : List Str → Str → Except Err (List Str)) :
    List Str → List Str → Except Err (List Str)
  | st, [] => .ok st
  | st, p :: ps => do
      let st2 ← includeFile fileF st p
      runIncludes fileF st2 ps

/-- The definition-scanning loop of `process_input`: a text definition only
touches the namespace; a code definition performs its includes. -/
def processItems (fileF : List Str → Str → Except Err (List Str)) :
    List Str → List Item → Except Err (List Str)
  | st, [] => .ok st
  | st, .defText _ _ :: items => processItems fileF st items
  | st, .defCode incs :: items => do
      let st2 ← runIncludes fileF st incs
      processItems fileF st2 items

/-- `process_input`: push `input_dir`, scan the body, pop.  On an error the
exception propagates before the pop runs, exactly as in the source (the pop
is not in a `finally`). -/
def processInputF (fileF : List Str → Str → Except Err (List Str))
    (st : List Str) (dir : Str) (items : List Item) : Except Err (List Str) := do
  let st2 ← processItems fileF (st ++ [dir]) items
  .ok st2.dropLast

/-- `process_file`: look the path up and process its content with the file's
directory; `fuel` bounds the include-nesting depth of the strict model. -/
def processFileF (cfg : PConfig) : Nat → List Str → Str → Except Err (List Str)
  | 0, _, _ => .error .recursionLimit
  | fuel + 1, st, path =>
    match lookupFiles cfg.files path with
    | none => .error .fileNotFound
    | some items => processInputF (processFileF cfg fuel) st (dirname path) items

/-- `process_input` at the top level, with recursive includes resolved
against `cfg`. -/
def processInput (cfg : PConfig) (fuel : Nat) (st : List Str) (dir : Str)
    (items : List Item) : Except Err (List Str) :=
  processInputF (processFileF cfg fuel) st dir items

/-- A concrete two-file configuration with a nested include chain, used to
witness the stack invariant. -/
def cfgW : PConfig :=
  ⟨[(['a'], [.defCode [['b']]]), (['b'], [.defText ['n'] ['v']])]⟩

/-! ### Predicates used by the claims -/

/-- The result is an error. -/
def isErr {α : Type} : Except Err α → Bool
  | .error _ => true
  | .ok _ => false

/-- No colon token at brace balance 0 (starting from `b`), and the balance
returns to 0 at the end: exactly the token lists `_parse_field_component`
consumes whole, tracking balance the way that function does. -/
def colonFreeBal : Nat → List Token → Bool
  | b, [] => b == 0
  | b, t :: ts =>
      if b = 0 ∧ isColon t = true then false
      else colonFreeBal (balStep b t) ts

/-- A nonempty text chunk containing no delimiter and no escape character. -/
def cleanChunk (s : Str) : Bool :=
  !s.isEmpty && s.all fun c => !(c == '{' || c == '}' || c == ':' || c == '\\')

/-! ## Lemmas: the lexer's fuel is adequate -/

theorem chunkM_pos (c : Chunk) : 0 < chunkM c := by
  cases c with
  | str s => exact Nat.pos_pow_of_pos s.length (by norm_num)
  | payload p => simp [chunkM]
  | tok t => simp [chunkM]

theorem streamM_cons (c : Chunk) (front source : List Chunk) :
    streamM (c :: front) source = chunkM c + streamM front source := by
  simp [streamM, add_assoc]

theorem streamM_nil_cons (c : Chunk) (source : List Chunk) :
    streamM [] (c :: source) = chunkM c + streamM [] source := by
  simp [streamM]

theorem streamRead1_some_facts :
    ∀ (front source f s : List Chunk) (c : Chunk),
      streamRead1 front source = (some c, f, s) →
      chunkFalsy c = false ∧ chunkM c + streamM f s ≤ streamM front source := by
  intro front
  induction front with
  | nil =>
    intro source f s c h
    cases source with
    | nil => simp [streamRead1] at h
    | cons d rest =>
      rw [streamRead1] at h
      by_cases hd : chunkFalsy d
      · rw [if_pos hd] at h; simp at h
      · rw [if_neg hd] at h
        simp only [Prod.mk.injEq, Option.some.injEq] at h
        obtain ⟨rfl, rfl, rfl⟩ := h
        exact ⟨by simpa using hd, by rw [streamM_nil_cons]⟩
  | cons d front ih =>
    intro source f s c h
    rw [streamRead1] at h
    by_cases hd : chunkFalsy d
    · rw [if_pos hd] at h
      have := ih source f s c h
      refine ⟨this.1, le_trans this.2 ?_⟩
      rw [streamM_cons]
      omega
    · rw [if_neg hd] at h
      simp only [Prod.mk.injEq, Option.some.injEq] at h
      obtain ⟨rfl, rfl, rfl⟩ := h
      exact ⟨by simpa using hd, by rw [streamM_cons]⟩

theorem streamRead1_none_facts :
    ∀ (front source f s : List Chunk),
      streamRead1 front source = (none, f, s) →
      streamM f s ≤ streamM front source := by
  intro front
  induction front with
  | nil =>
    intro source f s h
    cases source with
    | nil =>
      rw [streamRead1] at h
      simp only [Prod.mk.injEq] at h
      obtain ⟨_, rfl, rfl⟩ := h
      exact le_refl _
    | cons d rest =>
      rw [streamRead1] at h
      by_cases hd : chunkFalsy d
      · rw [if_pos hd] at h
        simp only [Prod.mk.injEq] at h
        obtain ⟨_, rfl, rfl⟩ := h
        rw [streamM_nil_cons]
        omega
      · rw [if_neg hd] at h
        simp at h
  | cons d front ih =>
    intro source f s h
    rw [streamRead1] at h
    by_cases hd : chunkFalsy d
    · rw [if_pos hd] at h
      refine le_trans (ih source f s h) ?_
      rw [streamM_cons]
      omega
    · rw [if_neg hd] at h
      simp at h

theorem partitionAt_sound (d : Char) :
    ∀ (s p q : Str), partitionAt d s = some (p, q) →
      s = p ++ d :: q ∧ d ∉ p := by
  intro s
  induction s with
  | nil => intro p q h; simp [partitionAt] at h
  | cons c cs ih =>
    intro p q h
    rw [partitionAt] at h
    by_cases hc : c = d
    · rw [if_pos hc] at h
      simp only [Option.some.injEq, Prod.mk.injEq] at h
      obtain ⟨rfl, rfl⟩ := h
      simp [hc]
    · rw [if_neg hc] at h
      split at h
      · simp at h
      · rename_i pre post hrec
        simp only [Option.some.injEq, Prod.mk.injEq] at h
        obtain ⟨rfl, rfl⟩ := h
        obtain ⟨hs, hmem⟩ := ih pre post hrec
        constructor
        · simp [hs]
        · simp only [List.mem_cons, not_or]
          exact ⟨fun hh => hc hh.symm, hmem⟩

theorem partitionAt_none (d : Char) :
    ∀ (s : Str), d ∉ s → partitionAt d s = none := by
  intro s
  induction s with
  | nil => intro _; rfl
  | cons c cs ih =>
    intro h
    simp only [List.mem_cons, not_or] at h
    rw [partitionAt, if_neg (fun hh => h.1 hh.symm), ih h.2]

theorem partitionAt_found (d : Char) :
    ∀ (s : Str), d ∈ s → ∃ p q, partitionAt d s = some (p, q) := by
  intro s
  induction s with
  | nil => intro h; simp at h
  | cons c cs ih =>
    intro h
    rw [partitionAt]
    by_cases hc : c = d
    · exact ⟨[], cs, by rw [if_pos hc]⟩
    · rw [if_neg hc]
      have hmem : d ∈ cs := by
        rcases List.mem_cons.mp h with h1 | h2
        · exact absurd h1.symm hc
        · exact h2
      obtain ⟨p, q, hpq⟩ := ih hmem
      exact ⟨c :: p, q, by rw [hpq]⟩

theorem splitOn1_sound (s : Str) (d : Char) (pre post : Str) (c : Char)
    (h : splitOn1 s d = some (pre, c, post)) :
    c = d ∧ s = pre ++ d :: post ∧ d ∉ pre ∧ ¬(pre = [] ∧ post = []) := by
  rw [splitOn1] at h
  split at h
  · simp at h
  · rename_i p q hp
    split at h
    · simp at h
    · rename_i hne
      simp only [Option.some.injEq, Prod.mk.injEq] at h
      obtain ⟨h1, h2, h3⟩ := h
      rw [h1, h3] at hp
      obtain ⟨hs, hmem⟩ := partitionAt_sound d s pre post hp
      refine ⟨h2.symm, hs, hmem, ?_⟩
      intro hcon
      exact hne ⟨by rw [h1, hcon.1], by rw [h3, hcon.2]⟩

theorem splitOn1_none (s : Str) (d : Char) (h : splitOn1 s d = none) :
    d ∉ s ∨ s = [d] := by
  rw [splitOn1] at h
  split at h
  · rename_i hp
    left
    intro hmem
    obtain ⟨p, q, hpq⟩ := partitionAt_found d s hmem
    rw [hpq] at hp
    simp at hp
  · rename_i p q hp
    split at h
    · rename_i he
      right
      obtain ⟨hs, _⟩ := partitionAt_sound d s p q hp
      rw [hs, he.1, he.2]
      rfl
    · simp at h

theorem splitChunk_sound (s : Str) (pre post : Str) (d : Char)
    (h : splitChunk s = some (pre, d, post)) :
    s = pre ++ d :: post ∧ d ∉ pre ∧ ¬(pre = [] ∧ post = []) := by
  rw [splitChunk] at h
  split at h
  · rename_i r h1
    rw [Option.some.injEq] at h
    subst h
    obtain ⟨hc, hs, hm, hn⟩ := splitOn1_sound s '{' pre post d h1
    subst hc
    exact ⟨hs, hm, hn⟩
  · rename_i h1
    split at h
    · rename_i r h2
      rw [Option.some.injEq] at h
      subst h
      obtain ⟨hc, hs, hm, hn⟩ := splitOn1_sound s '}' pre post d h2
      subst hc
      exact ⟨hs, hm, hn⟩
    · rename_i h2
      split at h
      · rename_i r h3
        rw [Option.some.injEq] at h
        subst h
        obtain ⟨hc, hs, hm, hn⟩ := splitOn1_sound s ':' pre post d h3
        subst hc
        exact ⟨hs, hm, hn⟩
      · rename_i h3
        obtain ⟨hc, hs, hm, hn⟩ := splitOn1_sound s '\\' pre post d h
        subst hc
        exact ⟨hs, hm, hn⟩

theorem pow3_split (a b : Nat) (h : 1 ≤ a + b) :
    3 ^ a + 3 + 3 ^ b < 3 ^ (a + b + 1) := by
  have h3 : (3:Nat) ^ 1 ≤ 3 ^ (a + b) := Nat.pow_le_pow_right (by norm_num) h
  have h4 : (3:Nat) ^ (a + b + 1) = 3 * 3 ^ (a + b) := by rw [pow_succ]; ring
  have h5 : (3:Nat) ^ 1 = 3 := pow_one 3
  have h6 : (3:Nat) ^ a + 3 ^ b ≤ 3 ^ (a + b) + 1 := by
    rcases Nat.eq_zero_or_pos a with rfl | ha
    · simp only [pow_zero, Nat.zero_add]
      omega
    rcases Nat.eq_zero_or_pos b with rfl | hb
    · simp only [pow_zero, Nat.add_zero]
      omega
    have ha3 : (3:Nat) ^ a ≤ 3 ^ (a + b - 1) :=
      Nat.pow_le_pow_right (by norm_num) (by omega)
    have hb3 : (3:Nat) ^ b ≤ 3 ^ (a + b - 1) :=
      Nat.pow_le_pow_right (by norm_num) (by omega)
    have hs : (3:Nat) ^ (a + b) = 3 * 3 ^ (a + b - 1) := by
      obtain ⟨k, hk⟩ : ∃ k, a + b - 1 = k := ⟨a + b - 1, rfl⟩
      have hx : a + b = k + 1 := by omega
      rw [hk, hx, pow_succ]; ring
    have hp : (1:Nat) ≤ 3 ^ (a + b - 1) := Nat.one_le_pow _ _ (by norm_num)
    omega
  omega

theorem tokensStep_measure (esc com : Bool) (c : Chunk) (f s : List Chunk)
    (r : Option Token × Bool × Bool × List Chunk × List Chunk)
    (hfal : chunkFalsy c = false)
    (h : tokensStep esc com c f s = .ok r) :
    streamM r.2.2.2.1 r.2.2.2.2 < chunkM c + streamM f s := by
  cases c with
  | payload p =>
    cases esc with
    | true => simp [tokensStep] at h
    | false =>
      have hv : tokensStep false com (Chunk.payload p) f s =
          .ok (some (.lit (.payload p)), false, com, f, s) := by simp [tokensStep]
      rw [hv] at h
      injection h with h'
      subst h'
      have := chunkM_pos (Chunk.payload p)
      simp only []
      omega
  | tok t =>
    cases esc with
    | true => simp [tokensStep] at h
    | false =>
      have hv : tokensStep false com (Chunk.tok t) f s = .ok (some t, false, com, f, s) := by
        simp [tokensStep]
      rw [hv] at h
      injection h with h'
      subst h'
      have := chunkM_pos (Chunk.tok t)
      simp only []
      omega
  | str str_s =>
    have hpow : ∀ rest : Str, (3 : Nat) ^ rest.length < 3 ^ (rest.length + 1) :=
      fun rest => Nat.pow_lt_pow_succ (by norm_num)
    cases esc with
    | true =>
      cases str_s with
      | nil => simp [chunkFalsy] at hfal
      | cons ch rest =>
        by_cases hch : ch = '\n'
        · have hv : tokensStep true com (Chunk.str (ch :: rest)) f s =
              .ok (none, false, com, Chunk.str rest :: f, s) := by
            simp [tokensStep, hch]
          rw [hv] at h
          injection h with h'
          subst h'
          simp only [streamM_cons, chunkM, List.length_cons]
          have := hpow rest
          omega
        · cases hesc : escapes ch with
          | none => simp [tokensStep, hch, hesc] at h
          | some m =>
            have hv : tokensStep true com (Chunk.str (ch :: rest)) f s =
                .ok (some (.lit (.str [m])), false, com, Chunk.str rest :: f, s) := by
              simp [tokensStep, hch, hesc]
            rw [hv] at h
            injection h with h'
            subst h'
            simp only [streamM_cons, chunkM, List.length_cons]
            have := hpow rest
            omega
    | false =>
      cases hsp : splitChunk str_s with
      | some r2 =>
        obtain ⟨pre, d, post⟩ := r2
        have hv : tokensStep false com (Chunk.str str_s) f s =
            .ok (none, false, com,
                 Chunk.str pre :: Chunk.str [d] :: Chunk.str post :: f, s) := by
          simp [tokensStep, hsp]
        rw [hv] at h
        injection h with h'
        subst h'
        obtain ⟨hs, _, hne⟩ := splitChunk_sound str_s pre post d hsp
        have hlen : str_s.length = pre.length + post.length + 1 := by
          rw [hs]; simp; omega
        have hab : 1 ≤ pre.length + post.length := by
          rcases List.eq_nil_or_concat pre with hp | hp
          · rcases List.eq_nil_or_concat post with hq | hq
            · exact absurd ⟨hp, hq⟩ hne
            · obtain ⟨l, x, rfl⟩ := hq; simp; omega
          · obtain ⟨l, x, rfl⟩ := hp; simp; omega
        have hps := pow3_split pre.length post.length hab
        simp only [streamM_cons, chunkM, List.length_singleton, pow_one, hlen]
        omega
      | none =>
        have hmpos := chunkM_pos (Chunk.str str_s)
        by_cases hcom : com = true
        · subst hcom
          by_cases hrb : str_s = ['}']
          · subst hrb
            have hv : tokensStep false true (Chunk.str ['}']) f s =
                .ok (none, false, false, f, s) := by
              simp [tokensStep, show splitChunk ['}'] = none from rfl]
            rw [hv] at h
            injection h with h'
            subst h'
            simp only []
            omega
          · have hv : tokensStep false true (Chunk.str str_s) f s =
                .ok (none, false, true, f, s) := by simp [tokensStep, hsp, hrb]
            rw [hv] at h
            injection h with h'
            subst h'
            simp only []
            omega
        · have hcom' : com = false := by simpa using hcom
          subst hcom'
          by_cases hbs : str_s = ['\\']
          · subst hbs
            have hv : tokensStep false false (Chunk.str ['\\']) f s =
                .ok (none, true, false, f, s) := by
              simp [tokensStep, show splitChunk ['\\'] = none from rfl]
            rw [hv] at h
            injection h with h'
            subst h'
            simp only []
            omega
          · by_cases hlb : str_s = ['{']
            · subst hlb
              cases hrd : streamRead1 f s with
              | mk oc rest2 =>
                obtain ⟨ff, ss⟩ := rest2
                cases oc with
                | some next =>
                  have hfacts := streamRead1_some_facts f s ff ss next hrd
                  by_cases hcs : isCommentStart next = true
                  · have hv : tokensStep false false (Chunk.str ['{']) f s =
                        .ok (none, false, true, next :: ff, ss) := by
                      simp [tokensStep, show splitChunk ['{'] = none from rfl, hrd, hcs]
                    rw [hv] at h
                    injection h with h'
                    subst h'
                    simp only [streamM_cons]
                    omega
                  · have hv : tokensStep false false (Chunk.str ['{']) f s =
                        .ok (some (.delim '{'), false, false, next :: ff, ss) := by
                      simp [tokensStep, show splitChunk ['{'] = none from rfl, hrd, hcs]
                    rw [hv] at h
                    injection h with h'
                    subst h'
                    simp only [streamM_cons]
                    omega
                | none =>
                  have hle := streamRead1_none_facts f s ff ss hrd
                  have hv : tokensStep false false (Chunk.str ['{']) f s =
                      .ok (some (.delim '{'), false, false, ff, ss) := by
                    simp [tokensStep, show splitChunk ['{'] = none from rfl, hrd]
                  rw [hv] at h
                  injection h with h'
                  subst h'
                  simp only []
                  omega
            · have hv : tokensStep false false (Chunk.str str_s) f s =
                  .ok (some (tokOf str_s), false, false, f, s) := by
                simp [tokensStep, hsp, hbs, hlb]
              rw [hv] at h
              injection h with h'
              subst h'
              simp only []
              omega

/-- Fuel invariance: any two adequate fuels give the same lexer result. -/
theorem tokensGo_inv (n : Nat) :
    ∀ (m : Nat) (esc com : Bool) (front source : List Chunk),
      streamM front source < n → streamM front source < m →
      tokensGo n esc com front source = tokensGo m esc com front source := by
  induction n using Nat.strong_induction_on with
  | _ n ih =>
    intro m esc com front source hn hm
    cases n with
    | zero => omega
    | succ n' =>
      cases m with
      | zero => omega
      | succ m' =>
        cases hrd : streamRead1 front source with
        | mk oc rest =>
          obtain ⟨f1, s1⟩ := rest
          cases oc with
          | none => simp only [tokensGo, hrd]
          | some c =>
            have hfacts := streamRead1_some_facts front source f1 s1 c hrd
            cases hst : tokensStep esc com c f1 s1 with
            | error e => simp only [tokensGo, hrd, hst]
            | ok r =>
              obtain ⟨t?, e2, c2, f2, s2⟩ := r
              have hme : streamM f2 s2 < chunkM c + streamM f1 s1 :=
                tokensStep_measure esc com c f1 s1 (t?, e2, c2, f2, s2) hfacts.1 hst
              simp only [tokensGo, hrd, hst]
              rw [ih n' (by omega) m' e2 c2 f2 s2 (by omega) (by omega)]

/-- End of stream: the lexer loop yields an empty token list. -/
theorem tokensParser_eos (esc com : Bool) (front source f s : List Chunk)
    (h : streamRead1 front source = (none, f, s)) :
    tokensParser esc com front source = .ok [] := by
  simp only [tokensParser, tokensGo, h]

/-- A failing step fails the lexer. -/
theorem tokensParser_fail (esc com : Bool) (front source f1 s1 : List Chunk)
    (c : Chunk) (e : Err)
    (h1 : streamRead1 front source = (some c, f1, s1))
    (h2 : tokensStep esc com c f1 s1 = .error e) :
    tokensParser esc com front source = .error e := by
  simp only [tokensParser, tokensGo, h1, h2]

/-- One successful lexer step, with the fuel re-normalized. -/
theorem tokensParser_step (esc com : Bool) (front source f1 s1 : List Chunk)
    (c : Chunk) (t? : Option Token) (e2 c2 : Bool) (f2 s2 : List Chunk)
    (h1 : streamRead1 front source = (some c, f1, s1))
    (h2 : tokensStep esc com c f1 s1 = .ok (t?, e2, c2, f2, s2)) :
    tokensParser esc com front source = consTok t? <$> tokensParser e2 c2 f2 s2 := by
  have hfacts := streamRead1_some_facts front source f1 s1 c h1
  have hme : streamM f2 s2 < chunkM c + streamM f1 s1 :=
    tokensStep_measure esc com c f1 s1 (t?, e2, c2, f2, s2) hfacts.1 h2
  have hL : tokensParser esc com front source =
      consTok t? <$> tokensGo (streamM front source) e2 c2 f2 s2 := by
    simp only [tokensParser, tokensGo, h1, h2]
  rw [hL, tokensGo_inv (streamM front source) (streamM f2 s2 + 1) e2 c2 f2 s2
    (by omega) (by omega)]
  rfl

/-! ## Derived lexer facts -/

theorem streamRead1_cons (c : Chunk) (front source : List Chunk)
    (h : chunkFalsy c = false) :
    streamRead1 (c :: front) source = (some c, front, source) := by
  rw [streamRead1, if_neg (by simp [h])]

theorem streamRead1_source (c : Chunk) (source : List Chunk)
    (h : chunkFalsy c = false) :
    streamRead1 [] (c :: source) = (some c, [], source) := by
  rw [streamRead1, if_neg (by simp [h])]

theorem consTok_none_map (x : Except Err (List Token)) : consTok none <$> x = x := by
  cases x <;> rfl

theorem tokensParser_empty (esc com : Bool) : tokensParser esc com [] [] = .ok [] :=
  tokensParser_eos esc com [] [] [] [] rfl

/-- A falsy chunk at the read position is skipped without any effect. -/
theorem tokensParser_skip (esc com : Bool) (c : Chunk) (front source : List Chunk)
    (h : chunkFalsy c = true) :
    tokensParser esc com (c :: front) source = tokensParser esc com front source := by
  rcases h1 : streamRead1 front source with ⟨oc, f1, s1⟩
  have h0 : streamRead1 (c :: front) source = (oc, f1, s1) := by
    rw [streamRead1, if_pos (by simp [h]), h1]
  cases oc with
  | none =>
    rw [tokensParser_eos esc com (c :: front) source f1 s1 h0,
        tokensParser_eos esc com front source f1 s1 h1]
  | some c' =>
    cases h2 : tokensStep esc com c' f1 s1 with
    | error e =>
      rw [tokensParser_fail esc com (c :: front) source f1 s1 c' e h0 h2,
          tokensParser_fail esc com front source f1 s1 c' e h1 h2]
    | ok r =>
      obtain ⟨t?, e2, c2, f2, s2⟩ := r
      rw [tokensParser_step esc com (c :: front) source f1 s1 c' t? e2 c2 f2 s2 h0 h2,
          tokensParser_step esc com front source f1 s1 c' t? e2 c2 f2 s2 h1 h2]

theorem splitChunk_none_all (s : Str) (h : splitChunk s = none) :
    splitOn1 s '{' = none ∧ splitOn1 s '}' = none ∧
      splitOn1 s ':' = none ∧ splitOn1 s '\\' = none := by
  rw [splitChunk] at h
  split at h
  · simp at h
  · rename_i h1
    split at h
    · simp at h
    · rename_i h2
      split at h
      · simp at h
      · rename_i h3
        exact ⟨h1, h2, h3, h⟩

theorem splitChunk_lb (c : Char) (rest : Str) :
    splitChunk ('{' :: c :: rest) = some ([], '{', c :: rest) := by
  simp [splitChunk, splitOn1, partitionAt]

/-- The first occurrence of a character splits a list uniquely. -/
theorem first_split_unique (a : Char) :
    ∀ (p u q v : Str), a ∉ p → a ∉ u → p ++ a :: q = u ++ a :: v →
      p = u ∧ q = v := by
  intro p
  induction p with
  | nil =>
    intro u q v _ hu h
    cases u with
    | nil => simpa using h
    | cons b u' =>
      rw [List.nil_append, List.cons_append, List.cons.injEq] at h
      exact absurd (by rw [h.1]; exact List.mem_cons_self b _) hu
  | cons c p' ih =>
    intro u q v hp hu h
    cases u with
    | nil =>
      rw [List.cons_append, List.nil_append, List.cons.injEq] at h
      exact absurd (by rw [← h.1]; exact List.mem_cons_self c _) hp
    | cons b u' =>
      rw [List.cons_append, List.cons_append, List.cons.injEq] at h
      have hp' : a ∉ p' := fun hh => hp (List.mem_cons_of_mem c hh)
      have hu' : a ∉ u' := fun hh => hu (List.mem_cons_of_mem b hh)
      obtain ⟨h1, h2⟩ := ih u' q v hp' hu' h.2
      exact ⟨by rw [h.1, h1], h2⟩

/-! ## Comment suppression (`commented_out` mode) -/

/-- Once inside a comment, a chunk containing no `}` is discarded whole. -/
theorem commentSkip : ∀ (n : Nat) (u : Str), u.length ≤ n → '}' ∉ u →
    ∀ (front source : List Chunk),
      tokensParser false true (Chunk.str u :: front) source =
        tokensParser false true front source := by
  intro n
  induction n with
  | zero =>
    intro u hlen _ front source
    have hu : u = [] := List.eq_nil_of_length_eq_zero (by omega)
    subst hu
    exact tokensParser_skip false true _ front source rfl
  | succ n ih =>
    intro u hlen hmem front source
    by_cases hu : u = []
    · subst hu
      exact tokensParser_skip false true _ front source rfl
    · have hfal : chunkFalsy (Chunk.str u) = false := by
        cases u with
        | nil => exact absurd rfl hu
        | cons a l => rfl
      have h1 := streamRead1_cons (Chunk.str u) front source hfal
      cases hsp : splitChunk u with
      | some r =>
        obtain ⟨pre, d, post⟩ := r
        obtain ⟨hs, _, hne⟩ := splitChunk_sound u pre post d hsp
        have h2 : tokensStep false true (Chunk.str u) front source =
            .ok (none, false, true,
                 Chunk.str pre :: Chunk.str [d] :: Chunk.str post :: front, source) := by
          simp [tokensStep, hsp]
        rw [tokensParser_step false true _ _ _ _ _ _ _ _ _ _ h1 h2, consTok_none_map]
        subst hs
        have hpre : '}' ∉ pre := fun hh => hmem (by simp [hh])
        have hd : '}' ∉ [d] := by
          intro hh
          simp only [List.mem_singleton] at hh
          exact hmem (by rw [hh]; simp)
        have hpost : '}' ∉ post := fun hh => hmem (by simp [hh])
        have hlen' : pre.length + (post.length + 1) ≤ n + 1 := by
          simpa using hlen
        have hone : 1 ≤ pre.length + post.length := by
          rcases not_and_or.mp hne with hx | hx
          · have := List.length_pos.mpr hx
            omega
          · have := List.length_pos.mpr hx
            omega
        rw [ih pre (by omega) hpre _ _, ih [d] (by simpa using (by omega : 1 ≤ n)) hd _ _,
            ih post (by omega) hpost front source]
      | none =>
        have hnr : ¬(u = ['}']) := fun hh => hmem (by simp [hh])
        have h2 : tokensStep false true (Chunk.str u) front source =
            .ok (none, false, true, front, source) := by
          simp [tokensStep, hsp, hnr]
        rw [tokensParser_step false true _ _ _ _ _ _ _ _ _ _ h1 h2, consTok_none_map]

/-- A chunk consisting of `}`-free text followed by `}` ends the comment at
that `}`, discarding everything up to and including it. -/
theorem commentClose : ∀ (n : Nat) (u : Str), u.length ≤ n → '}' ∉ u →
    ∀ (front source : List Chunk),
      tokensParser false true (Chunk.str (u ++ ['}']) :: front) source =
        tokensParser false false front source := by
  intro n
  induction n with
  | zero =>
    intro u hlen _ front source
    have hu : u = [] := List.eq_nil_of_length_eq_zero (by omega)
    subst hu
    have h1 := streamRead1_cons (Chunk.str ['}']) front source rfl
    have h2 : tokensStep false true (Chunk.str ['}']) front source =
        .ok (none, false, false, front, source) := by
      simp [tokensStep, show splitChunk ['}'] = none from rfl]
    rw [show (([] : Str) ++ ['}']) = ['}'] from rfl,
        tokensParser_step false true _ _ _ _ _ _ _ _ _ _ h1 h2, consTok_none_map]
  | succ n ih =>
    intro u hlen hmem front source
    by_cases hu : u = []
    · subst hu
      have h1 := streamRead1_cons (Chunk.str ['}']) front source rfl
      have h2 : tokensStep false true (Chunk.str ['}']) front source =
          .ok (none, false, false, front, source) := by
        simp [tokensStep, show splitChunk ['}'] = none from rfl]
      rw [show (([] : Str) ++ ['}']) = ['}'] from rfl,
          tokensParser_step false true _ _ _ _ _ _ _ _ _ _ h1 h2, consTok_none_map]
    · have hfal : chunkFalsy (Chunk.str (u ++ ['}'])) = false := by
        cases u with
        | nil => exact absurd rfl hu
        | cons a l => rfl
      have h1 := streamRead1_cons (Chunk.str (u ++ ['}'])) front source hfal
      cases hsp : splitChunk (u ++ ['}']) with
      | none =>
        exfalso
        obtain ⟨_, hrb, _, _⟩ := splitChunk_none_all _ hsp
        rcases splitOn1_none _ _ hrb with hx | hx
        · exact hx (by simp)
        · apply hu
          have : u.length + 1 = 1 := by
            have := congrArg List.length hx
            simpa using this
          exact List.eq_nil_of_length_eq_zero (by omega)
      | some r =>
        obtain ⟨pre, d, post⟩ := r
        obtain ⟨hs, hdpre, _⟩ := splitChunk_sound _ pre post d hsp
        have h2 : tokensStep false true (Chunk.str (u ++ ['}'])) front source =
            .ok (none, false, true,
                 Chunk.str pre :: Chunk.str [d] :: Chunk.str post :: front, source) := by
          simp [tokensStep, hsp]
        rw [tokensParser_step false true _ _ _ _ _ _ _ _ _ _ h1 h2, consTok_none_map]
        by_cases hd : d = '}'
        · subst hd
          have heq : pre = u ∧ post = [] := by
            refine first_split_unique '}' pre u post [] hdpre hmem ?_
            rw [← hs]
          obtain ⟨rfl, rfl⟩ := heq
          rw [commentSkip pre.length pre (le_refl _) hdpre _ _]
          have h3 := streamRead1_cons (Chunk.str ['}'])
            (Chunk.str [] :: front) source rfl
          have h4 : tokensStep false true (Chunk.str ['}'])
              (Chunk.str [] :: front) source =
              .ok (none, false, false, Chunk.str [] :: front, source) := by
            simp [tokensStep, show splitChunk ['}'] = none from rfl]
          rw [tokensParser_step false true _ _ _ _ _ _ _ _ _ _ h3 h4, consTok_none_map]
          exact tokensParser_skip false false (Chunk.str []) front source rfl
        · -- the split character lies inside `u`
          rcases List.eq_nil_or_concat' post with rfl | hconc
          · exfalso
            have := List.append_inj' hs (by simp)
            have hdd : '}' = d := by
              have h2' := this.2
              rw [List.cons.injEq] at h2'
              exact h2'.1
            exact hd hdd.symm
          · obtain ⟨post', c, rfl⟩ := hconc
            have hassoc : pre ++ d :: (post' ++ [c]) = (pre ++ d :: post') ++ [c] := by
              simp
            rw [hassoc] at hs
            have hsplit := List.append_inj' hs (by simp)
            have hueq : u = pre ++ d :: post' := hsplit.1
            have hc' : c = '}' := by
              have h2' := hsplit.2
              rw [List.cons.injEq] at h2'
              exact h2'.1.symm
            subst hc'
            have hpre : '}' ∉ pre := fun hh => hmem (by rw [hueq]; simp [hh])
            have hdl : '}' ∉ [d] := by
              intro hh
              simp only [List.mem_singleton] at hh
              exact hd hh.symm
            have hpost' : '}' ∉ post' := fun hh => hmem (by rw [hueq]; simp [hh])
            have hlen' : post'.length ≤ n := by
              have := congrArg List.length hueq
              simp at this
              omega
            rw [commentSkip pre.length pre (le_refl _) hpre _ _,
                commentSkip 1 [d] (by norm_num) hdl _ _,
                ih post' hlen' hpost' front source]


/-- Lexing a single-chunk commented-out field `{#...}` (no `}` inside the
body) yields no tokens at all. -/
theorem tokensParser_comment (s : Str) (h : '}' ∉ s) :
    tokensParser false false [] [Chunk.str ('{' :: '#' :: (s ++ ['}']))] = .ok [] := by
  have h1 : streamRead1 [] [Chunk.str ('{' :: '#' :: (s ++ ['}']))] =
      (some (Chunk.str ('{' :: '#' :: (s ++ ['}']))), [], []) :=
    streamRead1_source _ _ rfl
  have h2 : tokensStep false false (Chunk.str ('{' :: '#' :: (s ++ ['}']))) [] [] =
      .ok (none, false, false,
           [Chunk.str [], Chunk.str ['{'], Chunk.str ('#' :: (s ++ ['}']))], []) := by
    simp [tokensStep, splitChunk_lb]
  rw [tokensParser_step false false _ _ _ _ _ _ _ _ _ _ h1 h2, consTok_none_map,
      tokensParser_skip false false (Chunk.str [])
        [Chunk.str ['{'], Chunk.str ('#' :: (s ++ ['}']))] [] rfl]
  have h3 : streamRead1 [Chunk.str ['{'], Chunk.str ('#' :: (s ++ ['}']))] [] =
      (some (Chunk.str ['{']), [Chunk.str ('#' :: (s ++ ['}']))], []) :=
    streamRead1_cons _ _ _ rfl
  have hpeek : streamRead1 [Chunk.str ('#' :: (s ++ ['}']))] [] =
      (some (Chunk.str ('#' :: (s ++ ['}']))), [], []) :=
    streamRead1_cons _ _ _ rfl
  have h4 : tokensStep false false (Chunk.str ['{'])
      [Chunk.str ('#' :: (s ++ ['}']))] [] =
      .ok (none, false, true, [Chunk.str ('#' :: (s ++ ['}']))], []) := by
    simp [tokensStep, show splitChunk ['{'] = none from rfl, hpeek,
      show ¬((['{'] : Str) = ['\\']) from by decide,
      show ¬((['{'] : Str) = ['}']) from by decide, isCommentStart]
  rw [tokensParser_step false false _ _ _ _ _ _ _ _ _ _ h3 h4, consTok_none_map]
  have hre : Chunk.str ('#' :: (s ++ ['}'])) = Chunk.str (('#' :: s) ++ ['}']) := by
    simp
  rw [hre, commentClose ('#' :: s).length ('#' :: s) (le_refl _) (by simpa using h) [] []]
  exact tokensParser_empty false false

/-- An empty lexer result makes the whole expansion empty. -/
theorem expand_of_lex_nil (env : Env) (fuel : Nat) (input : List Chunk)
    (h : tokensParser false false [] input = .ok []) :
    expand env (fuel + 1) input = .ok [] := by
  have h2 : expandTokens env (fuel + 1) input = .ok [] := by
    simp only [expandTokens]
    rw [h]
    rfl
  rw [expand, h2]
  rfl


/-! ## Clean literal chunks pass through each stage unchanged -/

theorem splitOn1_none_of_partition (s : Str) (d : Char)
    (h : partitionAt d s = none) : splitOn1 s d = none := by
  simp [splitOn1, h]

theorem splitChunk_none_of_clean (s : Str)
    (h : ∀ c ∈ s, c ≠ '{' ∧ c ≠ '}' ∧ c ≠ ':' ∧ c ≠ '\\') : splitChunk s = none := by
  have h1 : splitOn1 s '{' = none :=
    splitOn1_none_of_partition s _ (partitionAt_none _ _ fun hm => (h _ hm).1 rfl)
  have h2 : splitOn1 s '}' = none :=
    splitOn1_none_of_partition s _ (partitionAt_none _ _ fun hm => (h _ hm).2.1 rfl)
  have h3 : splitOn1 s ':' = none :=
    splitOn1_none_of_partition s _ (partitionAt_none _ _ fun hm => (h _ hm).2.2.1 rfl)
  have h4 : splitOn1 s '\\' = none :=
    splitOn1_none_of_partition s _ (partitionAt_none _ _ fun hm => (h _ hm).2.2.2 rfl)
  simp [splitChunk, h1, h2, h3, h4]

theorem tokensStep_clean (s : Str) (f s2 : List Chunk) (_hne : s ≠ [])
    (hcl : ∀ c ∈ s, c ≠ '{' ∧ c ≠ '}' ∧ c ≠ ':' ∧ c ≠ '\\') :
    tokensStep false false (Chunk.str s) f s2 =
      .ok (some (Token.lit (.str s)), false, false, f, s2) := by
  have hsp := splitChunk_none_of_clean s hcl
  have hno1 : ¬(s = ['\\']) := fun hh => (hcl '\\' (by rw [hh]; simp)).2.2.2 rfl
  have hno2 : ¬(s = ['{']) := fun hh => (hcl '{' (by rw [hh]; simp)).1 rfl
  have hno3 : ¬(s = ['}']) := fun hh => (hcl '}' (by rw [hh]; simp)).2.1 rfl
  have hno4 : ¬(s = [':']) := fun hh => (hcl ':' (by rw [hh]; simp)).2.2.1 rfl
  have htok : tokOf s = Token.lit (.str s) := by
    rw [tokOf, if_neg hno2, if_neg hno3, if_neg hno4]
  simp [tokensStep, hsp, hno1, hno2, htok]

theorem chunkFalsy_str_ne (s : Str) (hne : s ≠ []) :
    chunkFalsy (Chunk.str s) = false := by
  cases s with
  | nil => exact absurd rfl hne
  | cons a l => rfl

theorem tokensParser_clean (chunks : List Str)
    (h : ∀ s ∈ chunks, s ≠ [] ∧ ∀ c ∈ s, c ≠ '{' ∧ c ≠ '}' ∧ c ≠ ':' ∧ c ≠ '\\') :
    tokensParser false false [] (chunks.map Chunk.str) =
      .ok (chunks.map fun s => Token.lit (.str s)) := by
  induction chunks with
  | nil => exact tokensParser_empty false false
  | cons s rest ih =>
    obtain ⟨hne, hcl⟩ := h s (by simp)
    have h1 : streamRead1 [] ((s :: rest).map Chunk.str) =
        (some (Chunk.str s), [], rest.map Chunk.str) := by
      rw [List.map_cons]
      exact streamRead1_source _ _ (chunkFalsy_str_ne s hne)
    have h2 := tokensStep_clean s [] (rest.map Chunk.str) hne hcl
    rw [tokensParser_step false false _ _ _ _ _ _ _ _ _ _ h1 h2,
        ih fun t ht => h t (by simp [ht])]
    rfl

theorem formatGo_lits (ts : List Token) :
    ∀ (f : List Token), (∀ t ∈ ts, ∃ l, t = Token.lit l) →
      formatGo 0 f ts = .ok ts := by
  induction ts with
  | nil => intro f _; rfl
  | cons t ts ih =>
    intro f h
    obtain ⟨l, rfl⟩ := h t (by simp)
    have hstep : formatGo 0 f (Token.lit l :: ts) =
        (downgradeTok (Token.lit l) :: ·) <$> formatGo 0 f ts := rfl
    rw [hstep, ih f fun t ht => h t (by simp [ht])]
    rfl

theorem expandToks_lits (F : List Token → Except Err (List Chunk)) (ts : List Token)
    (h : ∀ t ∈ ts, ∃ l, t = Token.lit l) :
    expandToks F ts = .ok (ts.map Chunk.tok) := by
  induction ts with
  | nil => rfl
  | cons t ts ih =>
    obtain ⟨l, rfl⟩ := h t (by simp)
    have hstep : expandToks F (Token.lit l :: ts) =
        expandToks F ts >>= fun rest => .ok (Chunk.tok (Token.lit l) :: rest) := rfl
    rw [hstep, ih fun t ht => h t (by simp [ht])]
    rfl

theorem mapM_expandOut_lits (ss : List Str) :
    (ss.map fun s => Chunk.tok (Token.lit (.str s))).mapM expandOut =
      .ok (ss.map Chunk.str) := by
  induction ss with
  | nil => rfl
  | cons s ss ih =>
    simp only [List.map_cons, List.mapM_cons, ih]
    rfl

theorem except_bind_ok {α β : Type} (a : α) (f : α → Except Err β) :
    (Except.ok a >>= f) = f a := rfl

/-- Assemble one `expand` run from the results of its stages. -/
theorem expand_pipeline (env : Env) (fuel : Nat) (input : List Chunk)
    (toks toks2 : List Token) (cs out : List Chunk)
    (h1 : tokensParser false false [] input = .ok toks)
    (h2 : formatParser toks = .ok toks2)
    (h3 : expandToks (parseAndExpandField env (expandTokens env fuel)) toks2 = .ok cs)
    (h4 : cs.mapM expandOut = .ok out) :
    expand env (fuel + 1) input = .ok out := by
  have hT : expandTokens env (fuel + 1) input = .ok cs := by
    simp only [expandTokens, h1, except_bind_ok, h2, h3]
  simp only [expand, hT, except_bind_ok, h4]

/-! ## Escape handling -/

theorem tokensParser_splice (com : Bool) (rest : Str) (front source : List Chunk) :
    tokensParser true com (Chunk.str ('\n' :: rest) :: front) source =
      tokensParser false com (Chunk.str rest :: front) source := by
  have h1 := streamRead1_cons (Chunk.str ('\n' :: rest)) front source rfl
  have h2 : tokensStep true com (Chunk.str ('\n' :: rest)) front source =
      .ok (none, false, com, Chunk.str rest :: front, source) := by
    simp [tokensStep]
  rw [tokensParser_step true com _ _ _ _ _ _ _ _ _ _ h1 h2, consTok_none_map]

theorem tokensParser_escape_known (com : Bool) (c m : Char) (rest : Str)
    (front source : List Chunk) (h : escapes c = some m) (hnl : c ≠ '\n') :
    tokensParser true com (Chunk.str (c :: rest) :: front) source =
      (Token.lit (.str [m]) :: ·) <$>
        tokensParser false com (Chunk.str rest :: front) source := by
  have h1 := streamRead1_cons (Chunk.str (c :: rest)) front source rfl
  have h2 : tokensStep true com (Chunk.str (c :: rest)) front source =
      .ok (some (Token.lit (.str [m])), false, com, Chunk.str rest :: front, source) := by
    simp [tokensStep, h, hnl]
  rw [tokensParser_step true com _ _ _ _ _ _ _ _ _ _ h1 h2]
  rfl

theorem tokensParser_escape_unknown (com : Bool) (c : Char) (rest : Str)
    (front source : List Chunk) (h : escapes c = none) (hnl : c ≠ '\n') :
    tokensParser true com (Chunk.str (c :: rest) :: front) source =
      .error .unknownEscape := by
  have h1 := streamRead1_cons (Chunk.str (c :: rest)) front source rfl
  have h2 : tokensStep true com (Chunk.str (c :: rest)) front source =
      .error .unknownEscape := by
    simp [tokensStep, h, hnl]
  exact tokensParser_fail true com _ _ _ _ _ _ h1 h2

/-! ## Non-text chunks -/

theorem tokensParser_payload (com : Bool) (p : Payload) (front source : List Chunk)
    (h : chunkFalsy (Chunk.payload p) = false) :
    tokensParser false com (Chunk.payload p :: front) source =
      (Token.lit (.payload p) :: ·) <$> tokensParser false com front source := by
  have h1 := streamRead1_cons (Chunk.payload p) front source h
  have h2 : tokensStep false com (Chunk.payload p) front source =
      .ok (some (Token.lit (.payload p)), false, com, front, source) := by
    simp [tokensStep]
  rw [tokensParser_step false com _ _ _ _ _ _ _ _ _ _ h1 h2]
  rfl

theorem tokensParser_tokchunk (com : Bool) (t : Token) (front source : List Chunk) :
    tokensParser false com (Chunk.tok t :: front) source =
      (t :: ·) <$> tokensParser false com front source := by
  have h1 := streamRead1_cons (Chunk.tok t) front source rfl
  have h2 : tokensStep false com (Chunk.tok t) front source =
      .ok (some t, false, com, front, source) := by
    simp [tokensStep]
  rw [tokensParser_step false com _ _ _ _ _ _ _ _ _ _ h1 h2]
  rfl

theorem tokensParser_payload_escaped (com : Bool) (p : Payload)
    (front source : List Chunk) (h : chunkFalsy (Chunk.payload p) = false) :
    tokensParser true com (Chunk.payload p :: front) source =
      .error .escapedNonText := by
  have h1 := streamRead1_cons (Chunk.payload p) front source h
  have h2 : tokensStep true com (Chunk.payload p) front source =
      .error .escapedNonText := by
    simp [tokensStep]
  exact tokensParser_fail true com _ _ _ _ _ _ h1 h2

theorem tokensParser_tokchunk_escaped (com : Bool) (t : Token)
    (front source : List Chunk) :
    tokensParser true com (Chunk.tok t :: front) source = .error .escapedNonText := by
  have h1 := streamRead1_cons (Chunk.tok t) front source rfl
  have h2 : tokensStep true com (Chunk.tok t) front source =
      .error .escapedNonText := by
    simp [tokensStep]
  exact tokensParser_fail true com _ _ _ _ _ _ h1 h2


/-! ## Claim C1 (literal passthrough) -/

/-- C1 counterexample: an input whose text contains no delimiter characters
(`{`, `}`, `:`) is *not* always passed through unchanged — the escape
character `\\` is also special (`\\n` collapses to a newline literal), and
an empty chunk silently terminates the stream. -/
theorem claim_C1_cex :
    expand envEmpty 1 [Chunk.str ['\\', 'n']] = .ok [Chunk.str ['\n']] ∧
    expand envEmpty 1 [Chunk.str ['a'], Chunk.str [], Chunk.str ['b']] =
      .ok [Chunk.str ['a']] ∧
    (['\n'] : Str) ≠ ['\\', 'n'] :=
  ⟨rfl, rfl, by decide⟩

/-- C1 (amended): for every input stream of nonempty text chunks containing
no delimiter characters (`{`, `}`, `:`) and no escape character (`\\`),
`Processor.expand` yields the input chunk sequence exactly, chunk for
chunk. -/
theorem claim_C1 (env : Env) (fuel : Nat) (chunks : List Str)
    (h : ∀ s ∈ chunks, s ≠ [] ∧ ∀ c ∈ s, c ≠ '{' ∧ c ≠ '}' ∧ c ≠ ':' ∧ c ≠ '\\') :
    expand env (fuel + 1) (chunks.map Chunk.str) = .ok (chunks.map Chunk.str) := by
  have hmem : ∀ t ∈ chunks.map fun s => Token.lit (LitC.str s), ∃ l, t = Token.lit l := by
    intro t ht
    simp only [List.mem_map] at ht
    obtain ⟨s, _, rfl⟩ := ht
    exact ⟨_, rfl⟩
  refine expand_pipeline env fuel _ (chunks.map fun s => Token.lit (.str s))
    (chunks.map fun s => Token.lit (.str s))
    (chunks.map fun s => Chunk.tok (Token.lit (.str s))) (chunks.map Chunk.str)
    (tokensParser_clean chunks h) (formatGo_lits _ [] hmem) ?_ ?_
  · have := expandToks_lits (parseAndExpandField env (expandTokens env fuel))
      (chunks.map fun s => Token.lit (.str s)) hmem
    simpa [List.map_map] using this
  · exact mapM_expandOut_lits chunks

theorem claim_C1_witness :
    (∀ s ∈ ([['a', 'b'], ['c']] : List Str),
       s ≠ [] ∧ ∀ c ∈ s, c ≠ '{' ∧ c ≠ '}' ∧ c ≠ ':' ∧ c ≠ '\\') ∧
    expand envEmpty 1 (([['a', 'b'], ['c']] : List Str).map Chunk.str) =
      .ok (([['a', 'b'], ['c']] : List Str).map Chunk.str) :=
  ⟨by decide, claim_C1 envEmpty 0 [['a', 'b'], ['c']] (by decide)⟩

/-! ## Claim C2 (comment suppression) -/

/-- C2 counterexample: the suppressing scan ends at the *first* bare `}`
chunk, not the matching one, so a commented-out field with nested braces is
not suppressed whole: `{#a{b}c}` leaks `c` and then fails on the now
unmatched final `}` — it does not produce zero output chunks. -/
theorem claim_C2_cex :
    expand envEmpty 1 [Chunk.str ['{', '#', 'a', '{', 'b', '}', 'c', '}']] =
      .error .unmatchedBrace := rfl

/-- C2 (amended): for an input `{#` body `}` whose body contains no `}`
character (nested `{` allowed), `Processor.expand` produces zero output
chunks: every chunk of the commented-out field is discarded and the first
bare `}`, which ends the scan, is discarded too and never reaches the
Field Parser. -/
theorem claim_C2 (env : Env) (fuel : Nat) (s : Str) (h : '}' ∉ s) :
    expand env (fuel + 1) [Chunk.str ('{' :: '#' :: (s ++ ['}']))] = .ok [] :=
  expand_of_lex_nil env fuel _ (tokensParser_comment s h)

theorem claim_C2_witness :
    ('}' ∉ (['a', '{', 'b'] : Str)) ∧
    expand envEmpty 1 [Chunk.str ('{' :: '#' :: (['a', '{', 'b'] ++ ['}']))] = .ok [] :=
  ⟨by decide, claim_C2 envEmpty 0 ['a', '{', 'b'] (by decide)⟩

/-! ## Claim C5 (escape handling) -/

/-- C5: after the lexer enters escape state, a following line terminator is
silently consumed with no token emitted (line splicing); any other
following character must be a key of the escape table — otherwise a fatal
unknown-escape error is raised — and is emitted as a Literal token carrying
the table's mapped character, with the remainder of the chunk pushed back;
end to end, `\\{` produces a single literal `{` chunk that never acts as an
opening delimiter, and `\\n` produces a one-character newline literal. -/
theorem claim_C5 (c cu m : Char) (rest : Str) (front source : List Chunk) (com : Bool)
    (hk : escapes c = some m) (hnl : c ≠ '\n')
    (hu : escapes cu = none) (hunl : cu ≠ '\n') :
    (tokensParser true com (Chunk.str ('\n' :: rest) :: front) source =
       tokensParser false com (Chunk.str rest :: front) source) ∧
    (tokensParser true com (Chunk.str (c :: rest) :: front) source =
       (Token.lit (.str [m]) :: ·) <$>
         tokensParser false com (Chunk.str rest :: front) source) ∧
    (tokensParser true com (Chunk.str (cu :: rest) :: front) source =
       .error .unknownEscape) ∧
    expand envEmpty 1 [Chunk.str ['\\', '{']] = .ok [Chunk.str ['{']] ∧
    expand envEmpty 1 [Chunk.str ['\\', 'n']] = .ok [Chunk.str ['\n']] :=
  ⟨tokensParser_splice com rest front source,
   tokensParser_escape_known com c m rest front source hk hnl,
   tokensParser_escape_unknown com cu rest front source hu hunl,
   rfl, rfl⟩

theorem claim_C5_witness :
    (escapes 't' = some '\t' ∧ ('t' : Char) ≠ '\n' ∧
       escapes 'q' = none ∧ ('q' : Char) ≠ '\n') ∧
    (tokensParser true false (Chunk.str ['\n', 'z'] :: []) [] =
       tokensParser false false (Chunk.str ['z'] :: []) []) ∧
    (tokensParser true false (Chunk.str ['t', 'z'] :: []) [] =
       (Token.lit (.str ['\t']) :: ·) <$>
         tokensParser false false (Chunk.str ['z'] :: []) []) ∧
    (tokensParser true false (Chunk.str ['q', 'z'] :: []) [] =
       .error .unknownEscape) ∧
    expand envEmpty 1 [Chunk.str ['\\', '{']] = .ok [Chunk.str ['{']] ∧
    expand envEmpty 1 [Chunk.str ['\\', 'n']] = .ok [Chunk.str ['\n']] := by
  have h := claim_C5 't' 'q' '\t' ['z'] [] [] false rfl (by decide) rfl (by decide)
  exact ⟨⟨rfl, by decide, rfl, by decide⟩, h.1, h.2.1, h.2.2.1, h.2.2.2.1, h.2.2.2.2⟩

/-! ## Claim C8 (non-text chunks) -/

/-- C8: every non-text chunk reaching the lexer is emitted as a Literal
token wrapping the original payload unchanged (a chunk that already is a
token passes through as itself), and it is a fatal internal-consistency
violation for an unresolved escape state to be active when a non-text
chunk arrives. -/
theorem claim_C8 (p : Payload) (t : Token) (com : Bool) (front source : List Chunk)
    (h : chunkFalsy (Chunk.payload p) = false) :
    (tokensParser false com (Chunk.payload p :: front) source =
       (Token.lit (.payload p) :: ·) <$> tokensParser false com front source) ∧
    (tokensParser false com (Chunk.tok t :: front) source =
       (t :: ·) <$> tokensParser false com front source) ∧
    (tokensParser true com (Chunk.payload p :: front) source =
       .error .escapedNonText) ∧
    (tokensParser true com (Chunk.tok t :: front) source = .error .escapedNonText) :=
  ⟨tokensParser_payload com p front source h, tokensParser_tokchunk com t front source,
   tokensParser_payload_escaped com p front source h,
   tokensParser_tokchunk_escaped com t front source⟩

theorem claim_C8_witness :
    (chunkFalsy (Chunk.payload (.num 5)) = false) ∧
    (tokensParser false false [Chunk.payload (.num 5)] [] =
       (Token.lit (.payload (.num 5)) :: ·) <$> tokensParser false false [] []) ∧
    (tokensParser false false [Chunk.tok (Token.lit (.str ['z']))] [] =
       (Token.lit (.str ['z']) :: ·) <$> tokensParser false false [] []) ∧
    (tokensParser true false [Chunk.payload (.num 5)] [] = .error .escapedNonText) ∧
    (tokensParser true false [Chunk.tok (Token.lit (.str ['z']))] [] =
       .error .escapedNonText) := by
  have h := claim_C8 (.num 5) (Token.lit (.str ['z'])) false [] [] rfl
  exact ⟨rfl, h.1, h.2.1, h.2.2.1, h.2.2.2⟩


/-! ## Claim C3 (callable fields and lazy arguments) -/

/-- C3 counterexample: the arguments handed to a callable are *lazy*
expansion streams, so an error raised while expanding an argument does
*not* surface before the callable runs — `g` (which never consumes its
argument) succeeds on `{g::{zzz}}` although expanding the argument `{zzz}`
alone fails. -/
theorem claim_C3_cex :
    expand envC 3 [Chunk.str ['{', 'g', ':', ':', '{', 'z', 'z', 'z', '}', '}']] =
      .ok [Chunk.str ['o', 'k']] ∧
    expand envC 3 [Chunk.str ['{', 'z', 'z', 'z', '}']] = .error .evalError :=
  ⟨rfl, rfl⟩

/-- C3 (amended): an invocable field value is called with one argument per
remaining colon-separated component (`f` receives three arguments in
`{f::a:b:c}`), each argument being a lazily expanded stream: an error in an
argument's expansion surfaces exactly when the callable consumes that
argument (`h` consumes and fails; `g` ignores it and succeeds). -/
theorem claim_C3 :
    expand envC 3 [Chunk.str ['{', 'f', ':', ':', 'a', ':', 'b', ':', 'c', '}']] =
      .ok [Chunk.str ['3']] ∧
    expand envC 3 [Chunk.str ['{', 'h', ':', ':', '{', 'z', 'z', 'z', '}', '}']] =
      .error .evalError ∧
    expand envC 3 [Chunk.str ['{', 'g', ':', ':', '{', 'z', 'z', 'z', '}', '}']] =
      .ok [Chunk.str ['o', 'k']] :=
  ⟨rfl, rfl, rfl⟩

/-! ## Claim C7 (plain and formatted fields) -/

/-- C7: with `x` evaluating to the string `"V"`, `{x}` expands to exactly
`"V"`, and `{x:>5}` collects the expansion, stringifies it and formats it
per the alignment/width minilanguage to four spaces followed by `V`. -/
theorem claim_C7 :
    expand envV 2 [Chunk.str ['{', 'x', '}']] = .ok [Chunk.str ['V']] ∧
    expand envV 2 [Chunk.str ['{', 'x', ':', '>', '5', '}']] =
      .ok [Chunk.str [' ', ' ', ' ', ' ', 'V']] :=
  ⟨rfl, rfl⟩

/-! ## Claim C10 (empty format specifier) -/

theorem fieldComponentGo_colonFree :
    ∀ (ts : List Token) (b : Nat) (comp : List Token), colonFreeBal b ts = true →
      fieldComponentGo b comp ts = (comp ++ ts, []) ∧
      fieldComponentGo b comp (ts ++ [Token.delim ':']) = (comp ++ ts, []) := by
  intro ts
  induction ts with
  | nil =>
    intro b comp h
    have hb : b = 0 := by simpa [colonFreeBal] using h
    subst hb
    constructor
    · simp [fieldComponentGo]
    · simp [fieldComponentGo, isColon]
  | cons t ts ih =>
    intro b comp h
    rw [colonFreeBal] at h
    by_cases hc : b = 0 ∧ isColon t = true
    · rw [if_pos hc] at h
      exact absurd h (by simp)
    · rw [if_neg hc] at h
      have hrec := ih (balStep b t) (comp ++ [t]) h
      constructor
      · rw [fieldComponentGo, if_neg hc, hrec.1]
        simp
      · rw [List.cons_append, fieldComponentGo, if_neg hc, hrec.2]
        simp

/-- C10: a replacement field whose format-specifier component is present
but empty behaves identically to the same field with no format specifier
at all — appending a trailing `:` to a field whose content has no
top-level colon leaves `_parse_and_expand_field` unchanged (so no
formatting or materialization is applied either way). -/
theorem claim_C10 (env : Env) (expander : List Chunk → Except Err (List Chunk))
    (ts : List Token) (h : colonFreeBal 0 ts = true) :
    parseAndExpandField env expander (ts ++ [Token.delim ':']) =
      parseAndExpandField env expander ts := by
  have h1 := fieldComponentGo_colonFree ts 0 [] h
  simp only [parseAndExpandField, fieldComponent, h1.1, h1.2, List.nil_append]

theorem claim_C10_witness :
    (colonFreeBal 0 [Token.lit (.str ['x'])] = true) ∧
    parseAndExpandField envV (expandTokens envV 1)
        ([Token.lit (.str ['x'])] ++ [Token.delim ':']) =
      parseAndExpandField envV (expandTokens envV 1) [Token.lit (.str ['x'])] :=
  ⟨by decide, claim_C10 envV (expandTokens envV 1) [Token.lit (.str ['x'])] (by decide)⟩

/-! ## Claim C6 (the pushback stream) -/

theorem popTop_append : ∀ (xs : List Chunk) (c : Chunk), popTop (xs ++ [c]) = some (c, xs) := by
  intro xs c
  induction xs with
  | nil => rfl
  | cons x xs ih =>
    cases xs with
    | nil => rfl
    | cons y ys =>
      have hstep : popTop ((x :: y :: ys) ++ [c]) =
          match popTop ((y :: ys) ++ [c]) with
          | some (t, r) => some (t, x :: r)
          | none => none := rfl
      rw [hstep, ih]

theorem popTop_length : ∀ (front f2 : List Chunk) (c : Chunk),
    popTop front = some (c, f2) → front.length = f2.length + 1 := by
  intro front
  induction front with
  | nil => intro f2 c h; simp [popTop] at h
  | cons x xs ih =>
    intro f2 c h
    cases xs with
    | nil =>
      simp only [popTop, Option.some.injEq, Prod.mk.injEq] at h
      obtain ⟨rfl, rfl⟩ := h
      rfl
    | cons y ys =>
      have hstep : popTop (x :: y :: ys) =
          match popTop (y :: ys) with
          | some (t, r) => some (t, x :: r)
          | none => none := rfl
      rw [hstep] at h
      cases hp : popTop (y :: ys) with
      | none => rw [hp] at h; simp at h
      | some tr =>
        obtain ⟨t, r⟩ := tr
        rw [hp] at h
        simp only [Option.some.injEq, Prod.mk.injEq] at h
        obtain ⟨rfl, rfl⟩ := h
        have := ih r t hp
        simp only [List.length_cons] at *
        omega

theorem popTop_none : ∀ (front : List Chunk), popTop front = none → front = [] := by
  intro front
  induction front with
  | nil => intro _; rfl
  | cons x xs ih =>
    intro h
    cases xs with
    | nil => simp [popTop] at h
    | cons y ys =>
      have hstep : popTop (x :: y :: ys) =
          match popTop (y :: ys) with
          | some (t, r) => some (t, x :: r)
          | none => none := rfl
      rw [hstep] at h
      cases hp : popTop (y :: ys) with
      | none => exact absurd (ih hp) (by simp)
      | some tr => obtain ⟨t, r⟩ := tr; rw [hp] at h; simp at h

/-- Fuel invariance for the stream drain. -/
theorem readAllGo_inv (n : Nat) :
    ∀ (m : Nat) (front source : List Chunk),
      front.length + source.length < n → front.length + source.length < m →
      readAllGo n front source = readAllGo m front source := by
  induction n using Nat.strong_induction_on with
  | _ n ih =>
    intro m front source hn hm
    cases n with
    | zero => omega
    | succ n' =>
      cases m with
      | zero => omega
      | succ m' =>
        cases hp : popTop front with
        | some cf =>
          obtain ⟨c, front2⟩ := cf
          have hl := popTop_length front front2 c hp
          simp only [readAllGo, hp]
          by_cases hc : chunkFalsy c = true
          · simp only [hc, if_true]
            exact ih n' (by omega) m' front2 source (by omega) (by omega)
          · simp only [hc, if_false]
            rw [ih n' (by omega) m' front2 source (by omega) (by omega)]
        | none =>
          have hf : front = [] := popTop_none front hp
          subst hf
          cases source with
          | nil => simp [readAllGo, hp]
          | cons c rest =>
            simp only [readAllGo, hp]
            by_cases hc : chunkFalsy c = true
            · simp [hc]
            · simp only [hc, if_false]
              simp only [List.length_nil, List.length_cons] at hn hm
              rw [ih n' (by omega) m' [] rest (by simp; omega) (by simp; omega)]

theorem readAll_append (xs : List Chunk) (c : Chunk) (source : List Chunk) :
    readAll (xs ++ [c]) source =
      if chunkFalsy c then readAll xs source else c :: readAll xs source := by
  have hlen : (xs ++ [c]).length = xs.length + 1 := by simp
  by_cases hc : chunkFalsy c = true
  · rw [if_pos hc]
    have hL : readAll (xs ++ [c]) source =
        readAllGo ((xs ++ [c]).length + source.length) xs source := by
      simp only [readAll, readAllGo, popTop_append, hc, if_true]
    rw [hL, readAllGo_inv ((xs ++ [c]).length + source.length)
      (xs.length + source.length + 1) xs source (by omega) (by omega)]
    rfl
  · rw [if_neg hc]
    have hL : readAll (xs ++ [c]) source =
        c :: readAllGo ((xs ++ [c]).length + source.length) xs source := by
      simp only [readAll, readAllGo, popTop_append, hc, if_false]
      simp
    rw [hL, readAllGo_inv ((xs ++ [c]).length + source.length)
      (xs.length + source.length + 1) xs source (by omega) (by omega)]
    rfl

theorem readAll_nil_cons (c : Chunk) (src : List Chunk) :
    readAll [] (c :: src) = if chunkFalsy c then [] else c :: readAll [] src := by
  by_cases hc : chunkFalsy c = true
  · rw [if_pos hc]
    simp only [readAll, readAllGo, popTop, hc, if_true]
  · rw [if_neg hc]
    have hL : readAll [] (c :: src) =
        c :: readAllGo (([] : List Chunk).length + (c :: src).length) [] src := by
      simp only [readAll, readAllGo, popTop, hc, if_false]
      simp
    rw [hL, readAllGo_inv (([] : List Chunk).length + (c :: src).length)
      (([] : List Chunk).length + src.length + 1) [] src (by simp) (by simp)]
    rfl

/-- C6: a multi-chunk `_Stream.push_back` makes a subsequent read yield the
pushed-back chunks in the caller's left-to-right order (falsy ones skipped,
never yielded) before any not-yet-consumed source chunk, and a falsy chunk
pulled from the source terminates the stream. -/
theorem claim_C6 :
    (∀ (front chunks source : List Chunk),
       readAll (pushBack front chunks) source =
         chunks.filter (fun c => !chunkFalsy c) ++ readAll front source) ∧
    (∀ (c : Chunk) (src : List Chunk),
       readAll [] (c :: src) = if chunkFalsy c then [] else c :: readAll [] src) := by
  constructor
  · intro front chunks source
    induction chunks with
    | nil => simp [pushBack]
    | cons c cs ih =>
      have h1 : pushBack front (c :: cs) = pushBack front cs ++ [c] := by
        simp [pushBack]
      rw [h1, readAll_append, ih]
      by_cases hc : chunkFalsy c = true
      · simp [hc, List.filter_cons]
      · simp [hc, List.filter_cons]
  · exact readAll_nil_cons

/-! ## Claim C9 (the include-directory stack) -/

theorem except_bind_err {α β : Type} (e : Err) (f : α → Except Err β) :
    ((Except.error e : Except Err α) >>= f) = .error e := rfl

theorem runIncludes_pres (fileF : List Str → Str → Except Err (List Str))
    (hf : ∀ st p st', fileF st p = .ok st' → st' = st) :
    ∀ (ps : List Str) (st st' : List Str),
      runIncludes fileF st ps = .ok st' → st' = st := by
  intro ps
  induction ps with
  | nil =>
    intro st st' h
    rw [runIncludes] at h
    injection h with h'
    exact h'.symm
  | cons p ps ih =>
    intro st st' h
    rw [runIncludes] at h
    cases hi : includeFile fileF st p with
    | error e => rw [hi, except_bind_err] at h; exact absurd h (by simp)
    | ok st2 =>
      rw [hi, except_bind_ok] at h
      have h2 := ih st2 st' h
      have h3 := hf st _ st2 hi
      rw [h2, h3]

theorem processItems_pres (fileF : List Str → Str → Except Err (List Str))
    (hf : ∀ st p st', fileF st p = .ok st' → st' = st) :
    ∀ (items : List Item) (st st' : List Str),
      processItems fileF st items = .ok st' → st' = st := by
  intro items
  induction items with
  | nil =>
    intro st st' h
    rw [processItems] at h
    injection h with h'
    exact h'.symm
  | cons it items ih =>
    intro st st' h
    cases it with
    | defText name body =>
      rw [processItems] at h
      exact ih st st' h
    | defCode incs =>
      rw [processItems] at h
      cases hi : runIncludes fileF st incs with
      | error e => rw [hi, except_bind_err] at h; exact absurd h (by simp)
      | ok st2 =>
        rw [hi, except_bind_ok] at h
        have h2 := ih st2 st' h
        have h3 := runIncludes_pres fileF hf incs st st2 hi
        rw [h2, h3]

theorem processInputF_pres (fileF : List Str → Str → Except Err (List Str))
    (hf : ∀ st p st', fileF st p = .ok st' → st' = st)
    (st : List Str) (dir : Str) (items : List Item) (st' : List Str)
    (h : processInputF fileF st dir items = .ok st') : st' = st := by
  rw [processInputF] at h
  cases hpi : processItems fileF (st ++ [dir]) items with
  | error e => rw [hpi, except_bind_err] at h; exact absurd h (by simp)
  | ok st2 =>
    rw [hpi, except_bind_ok] at h
    injection h with h'
    have h2 := processItems_pres fileF hf items (st ++ [dir]) st2 hpi
    rw [← h', h2, List.dropLast_concat]

theorem processFileF_pres (cfg : PConfig) :
    ∀ (fuel : Nat) (st : List Str) (path : Str) (st' : List Str),
      processFileF cfg fuel st path = .ok st' → st' = st := by
  intro fuel
  induction fuel with
  | zero => intro st path st' h; simp [processFileF] at h
  | succ fuel ih =>
    intro st path st' h
    rw [processFileF] at h
    cases hl : lookupFiles cfg.files path with
    | none => rw [hl] at h; exact absurd h (by simp)
    | some items =>
      rw [hl] at h
      exact processInputF_pres (processFileF cfg fuel)
        (fun st p st' => ih st p st') st (dirname path) items st' h

/-- C9: `process_input` pushes the include-directory stack exactly once
before a file's body is processed and pops it exactly once after, including
when that file recursively includes others — a successful run returns the
stack it started from, at every nesting level (`processFileF` preserves it
likewise). -/
theorem claim_C9 (cfg : PConfig) (fuel : Nat) (st : List Str) (dir : Str)
    (items : List Item) (st' : List Str)
    (h : processInput cfg fuel st dir items = .ok st') : st' = st :=
  processInputF_pres (processFileF cfg fuel)
    (fun s p s' => processFileF_pres cfg fuel s p s') st dir items st' h

theorem claim_C9_witness :
    (processInput cfgW 5 [['.']] [] [Item.defCode [['a']]] = .ok [['.']]) ∧
    (([['.']] : List Str) = [['.']]) :=
  ⟨rfl, claim_C9 cfgW 5 [['.']] [] [Item.defCode [['a']]] [['.']] rfl⟩


/-! ## Claim C4 (structural errors of the field parser) -/

theorem isLBrace_eq (t : Token) : isLBrace t = true ↔ t = Token.delim '{' := by
  cases t with
  | delim c => simp [isLBrace]
  | lit l => simp [isLBrace]
  | field ts => simp [isLBrace]

theorem isRBrace_eq (t : Token) : isRBrace t = true ↔ t = Token.delim '}' := by
  cases t with
  | delim c => simp [isRBrace]
  | lit l => simp [isRBrace]
  | field ts => simp [isRBrace]

theorem isErr_map (g : List Token → List Token) (r : Except Err (List Token)) :
    isErr (g <$> r) = isErr r := by
  cases r <;> rfl

theorem formatGo_cons (b : Nat) (f : List Token) (t : Token) (ts : List Token) :
    formatGo b f (t :: ts) =
      (if isLBrace t then
        (if b = 0 then formatGo 1 f ts else formatGo (b + 1) (f ++ [t]) ts)
       else if isRBrace t then
        (if b = 0 then .error .unmatchedBrace
         else if b = 1 then
           (match f with
            | [] => formatGo 0 [] ts
            | g => (Token.field g :: ·) <$> formatGo 0 [] ts)
         else formatGo (b - 1) (f ++ [t]) ts)
       else if b = 0 then (downgradeTok t :: ·) <$> formatGo 0 f ts
       else formatGo b (f ++ [t]) ts) := rfl

theorem exists_split_cons (t : Token) (ts : List Token) (P : List Token → Prop) :
    (∃ p q, t :: ts = p ++ Token.delim '}' :: q ∧ P p) ↔
      ((t = Token.delim '}' ∧ P []) ∨
        ∃ p q, ts = p ++ Token.delim '}' :: q ∧ P (t :: p)) := by
  constructor
  · rintro ⟨p, q, hpq, hP⟩
    cases p with
    | nil =>
      rw [List.nil_append, List.cons.injEq] at hpq
      exact Or.inl ⟨hpq.1, hP⟩
    | cons a p' =>
      rw [List.cons_append, List.cons.injEq] at hpq
      exact Or.inr ⟨p', q, hpq.2, hpq.1 ▸ hP⟩
  · rintro (⟨h1, h2⟩ | ⟨p, q, hpq, hP⟩)
    · exact ⟨[], ts, by simp [h1], h2⟩
    · exact ⟨t :: p, q, by simp [hpq], hP⟩

/-- The balance-vs-count bookkeeping of one consumed token: consuming `t`
shifts the balance from `b` to `b'` and shifts both counts by `t`'s own
contribution, so the error characterization carries over. -/
theorem rhs_cons_iff (t : Token) (ts : List Token) (b b' il ir : Nat)
    (hil : ∀ x : List Token, (t :: x).countP isLBrace = x.countP isLBrace + il)
    (hir : ∀ x : List Token, (t :: x).countP isRBrace = x.countP isRBrace + ir)
    (hbal : b + il = b' + ir)
    (hz : t = Token.delim '}' → b ≠ 0) :
    (((t = Token.delim '}' ∧
         b + List.countP isLBrace [] = List.countP isRBrace []) ∨
       ∃ p q, ts = p ++ Token.delim '}' :: q ∧
         b + (t :: p).countP isLBrace = (t :: p).countP isRBrace) ∨
      b + (t :: ts).countP isLBrace ≠ (t :: ts).countP isRBrace) ↔
    ((∃ p q, ts = p ++ Token.delim '}' :: q ∧
        b' + p.countP isLBrace = p.countP isRBrace) ∨
      b' + ts.countP isLBrace ≠ ts.countP isRBrace) := by
  constructor
  · rintro ((⟨ht, hc⟩ | ⟨p, q, hpq, hc⟩) | hc)
    · simp only [List.countP_nil] at hc
      exact absurd (by omega) (hz ht)
    · rw [hil, hir] at hc
      exact Or.inl ⟨p, q, hpq, by omega⟩
    · rw [hil, hir] at hc
      exact Or.inr (by omega)
  · rintro (⟨p, q, hpq, hc⟩ | hc)
    · exact Or.inl (Or.inr ⟨p, q, hpq, by rw [hil, hir]; omega⟩)
    · exact Or.inr (by rw [hil, hir]; omega)

/-- `_format_parser` (from any starting balance) fails exactly when a `}`
token arrives with the running balance at 0, or the tokens end with the
balance nonzero — stated through brace-token counts. -/
theorem formatGo_err_iff :
    ∀ (ts : List Token) (b : Nat) (f : List Token),
      isErr (formatGo b f ts) = true ↔
        ((∃ p q, ts = p ++ Token.delim '}' :: q ∧
            b + p.countP isLBrace = p.countP isRBrace) ∨
          b + ts.countP isLBrace ≠ ts.countP isRBrace) := by
  intro ts
  induction ts with
  | nil =>
    intro b f
    have hE : formatGo b f [] = if b = 0 then .ok [] else .error .unterminated := rfl
    rw [hE]
    by_cases hb : b = 0
    · subst hb
      rw [if_pos rfl]
      simp [isErr]
    · rw [if_neg hb]
      simp only [isErr, List.countP_nil, true_iff]
      exact Or.inr (by omega)
  | cons t ts ih =>
    intro b f
    rw [formatGo_cons, exists_split_cons]
    by_cases hL : isLBrace t = true
    · have ht := (isLBrace_eq t).mp hL
      rw [if_pos hL]
      have hil : ∀ x : List Token, (t :: x).countP isLBrace = x.countP isLBrace + 1 :=
        fun x => List.countP_cons_of_pos _ _ hL
      have hir : ∀ x : List Token, (t :: x).countP isRBrace = x.countP isRBrace + 0 :=
        fun x => by
          rw [List.countP_cons_of_neg _ _ (by rw [ht]; decide)]
          omega
      have hz : t = Token.delim '}' → b ≠ 0 := by
        intro h
        rw [ht] at h
        injection h with h2
        exact absurd h2 (by decide)
      by_cases hb : b = 0
      · subst hb
        rw [if_pos rfl, ih 1 f]
        exact (rhs_cons_iff t ts 0 1 1 0 hil hir (by omega) hz).symm
      · rw [if_neg hb, ih (b + 1) (f ++ [t])]
        exact (rhs_cons_iff t ts b (b + 1) 1 0 hil hir (by omega) hz).symm
    · by_cases hR : isRBrace t = true
      · have ht := (isRBrace_eq t).mp hR
        rw [if_neg hL, if_pos hR]
        have hil : ∀ x : List Token, (t :: x).countP isLBrace = x.countP isLBrace + 0 :=
          fun x => by
            rw [List.countP_cons_of_neg _ _ (by rw [ht]; decide)]
            omega
        have hir : ∀ x : List Token, (t :: x).countP isRBrace = x.countP isRBrace + 1 :=
          fun x => List.countP_cons_of_pos _ _ hR
        by_cases hb : b = 0
        · subst hb
          rw [if_pos rfl]
          simp only [isErr, true_iff]
          exact Or.inl (Or.inl ⟨ht, by simp⟩)
        · rw [if_neg hb]
          have hz : t = Token.delim '}' → b ≠ 0 := fun _ => hb
          by_cases hb1 : b = 1
          · subst hb1
            rw [if_pos rfl]
            have hmt : isErr
                (match f with
                 | [] => formatGo 0 [] ts
                 | g => (Token.field g :: ·) <$> formatGo 0 [] ts) =
                isErr (formatGo 0 [] ts) := by
              cases f with
              | nil => rfl
              | cons a f' => exact isErr_map _ _
            rw [hmt, ih 0 []]
            exact (rhs_cons_iff t ts 1 0 0 1 hil hir (by omega) hz).symm
          · rw [if_neg hb1, ih (b - 1) (f ++ [t])]
            exact (rhs_cons_iff t ts b (b - 1) 0 1 hil hir (by omega) hz).symm
      · rw [if_neg hL, if_neg hR]
        have hil : ∀ x : List Token, (t :: x).countP isLBrace = x.countP isLBrace + 0 :=
          fun x => by rw [List.countP_cons_of_neg _ _ (by simpa using hL)]; omega
        have hir : ∀ x : List Token, (t :: x).countP isRBrace = x.countP isRBrace + 0 :=
          fun x => by rw [List.countP_cons_of_neg _ _ (by simpa using hR)]; omega
        have hz : t = Token.delim '}' → b ≠ 0 := by
          intro h
          rw [h] at hR
          exact absurd rfl hR
        by_cases hb : b = 0
        · subst hb
          rw [if_pos rfl, isErr_map, ih 0 f]
          exact (rhs_cons_iff t ts 0 0 0 0 hil hir (by omega) hz).symm
        · rw [if_neg hb, ih b (f ++ [t])]
          exact (rhs_cons_iff t ts b b 0 0 hil hir (by omega) hz).symm

/-- C4: the field parser fails with a structural error exactly when a `}`
delimiter token arrives while the brace balance is 0 (some prefix with
equally many `{` and `}` delimiter tokens is followed by a `}`) or the
token stream ends with unequal brace-token counts (balance ≠ 0); and the
input `{x` with no closing brace raises the unterminated-field error rather
than silently truncating output. -/
theorem claim_C4 :
    (∀ ts : List Token,
       isErr (formatParser ts) = true ↔
         ((∃ p q, ts = p ++ Token.delim '}' :: q ∧
             p.countP isLBrace = p.countP isRBrace) ∨
           ts.countP isLBrace ≠ ts.countP isRBrace)) ∧
    expand envEmpty 1 [Chunk.str ['{', 'x']] = .error .unterminated := by
  constructor
  · intro ts
    have h := formatGo_err_iff ts 0 []
    simpa [formatParser] using h
  · rfl

end Tproc
